import Mathlib

/-!
Verification development for the openapi-validator-tui core.

Rust strings are modelled as lists of characters (`Str`).  Lengths of such
lists coincide with Rust byte lengths on ASCII data, and every length
identity proved here is additive over the same string pieces on both sides,
so the choice of unit (chars vs bytes) does not affect any stated equality.
All definitions are direct translations of the Rust sources in `src/`.
-/

set_option maxRecDepth 4000

abbrev Str := List Char

/-- Model of Rust `str::split(pred)`: split at every matching character,
keeping empty pieces.  The result is always non-empty. -/
def splitWhen (p : Char → Bool) : Str → List Str
  | [] => [[]]
  | c :: cs =>
    if p c then [] :: splitWhen p cs
    else (splitWhen p cs).modifyHead (fun r => c :: r)

/-- Strip one trailing carriage return, as Rust `lines` does on pieces that
were terminated by a `\n`. -/
def stripCR (l : Str) : Str :=
  if l.getLast? = some '\r' then l.dropLast else l

/-- Model of Rust `str::lines`: split on `\n`; a final empty piece (from a
trailing newline) is dropped; pieces that were terminated by `\n` lose a
trailing `\r` (the final unterminated piece keeps any `\r`). -/
def rustLines (s : Str) : List Str :=
  let ps := splitWhen (fun c => c = '\n') s
  ps.dropLast.map stripCR ++
    (match ps.getLast? with
     | some [] => []
     | some l => [l]
     | none => [])

/-- Model of Rust `str::trim_start`. -/
def trimStart (s : Str) : Str := s.dropWhile Char.isWhitespace

/-- Model of Rust `str::trim`. -/
def trimBoth (s : Str) : Str :=
  ((s.dropWhile Char.isWhitespace).reverse.dropWhile Char.isWhitespace).reverse

/-- Model of Rust `str::contains(char)`. -/
def hasChar (s : Str) (c : Char) : Bool := s.any (fun x => x = c)

/-- Model of Rust `str::split_whitespace`. -/
def split_whitespace (s : Str) : List Str :=
  (splitWhen Char.isWhitespace s).filter (fun w => w ≠ [])

/-- Model of Rust `[&str]::join(" ")`. -/
def joinSpace : List Str → Str
  | [] => []
  | [w] => w
  | w :: ws => w ++ ' ' :: joinSpace ws

/-- Model of Rust `Vec<String>::join("\n")`. -/
def joinNl : List Str → Str
  | [] => []
  | [l] => l
  | l :: ls => l ++ '\n' :: joinNl ls

/-- Model of Rust `usize::from_str` restricted to plain digit strings
(the inputs produced by linters; the optional `+` sign accepted by Rust
never occurs in `line:col` positions). -/
def str_to_nat (s : Str) : Option Nat :=
  if s ≠ [] ∧ s.all Char.isDigit then
    some (s.foldl (fun n c => n * 10 + (c.toNat - '0'.toNat)) 0)
  else none

-- ── Lint-log data model (src/log_parser/mod.rs) ─────────────────────────

/-- Severity of a lint finding (src/log_parser/mod.rs). -/
inductive Severity where
  | error
  | warning
  | info
  | hint
deriving DecidableEq, Repr

/-- `Severity::rank` (src/log_parser/mod.rs). -/
def Severity.rank : Severity → Nat
  | .error => 3
  | .warning => 2
  | .info => 1
  | .hint => 0

/-- `Severity::from_str_lossy` (src/log_parser/mod.rs): case-insensitive,
unknown words default to `warning`. -/
def Severity.from_str_lossy (s : Str) : Severity :=
  let low := s.map Char.toLower
  if low = "error".toList then .error
  else if low = "warning".toList then .warning
  else if low = "info".toList ∨ low = "information".toList then .info
  else if low = "hint".toList then .hint
  else .warning

/-- A lint finding (src/log_parser/mod.rs `LintError`). -/
structure LintError where
  line : Nat
  col : Nat
  severity : Severity
  rule : Str
  message : Str
  json_path : Option Str
deriving DecidableEq, Repr

-- ── Lint-log parser (src/log_parser/parse.rs) ───────────────────────────

/-- Strip all trailing `.` characters: Rust `str::trim_end_matches('.')`. -/
def trimEndDots (s : Str) : Str :=
  (s.reverse.dropWhile (fun c => c = '.')).reverse

/-- `looks_like_json_path` (src/log_parser/parse.rs): the heuristic deciding
whether a trailing token is a JSON path. -/
def looks_like_json_path (token : Str) : Bool :=
  if token = [] then false
  else if token.head? = some '/' then true
  else if hasChar token '[' then true
  else if hasChar token '.' ∧ hasChar (trimEndDots token) '.' then true
  else false

/-- `split_message_and_path` (src/log_parser/parse.rs). -/
def split_message_and_path (tokens : List Str) : Str × Option Str :=
  if 1 < tokens.length then
    let last := tokens.getLastD []
    if looks_like_json_path last then (joinSpace tokens.dropLast, some last)
    else (joinSpace tokens, none)
  else (joinSpace tokens, none)

/-- `parse_location` (src/log_parser/parse.rs): split `"line:col"` at the
first `:` and parse both halves. -/
def parse_location (s : Str) : Option (Nat × Nat) :=
  let l := s.takeWhile (fun c => c ≠ ':')
  let rest := s.dropWhile (fun c => c ≠ ':')
  match rest with
  | [] => none
  | _ :: c =>
    match str_to_nat l, str_to_nat c with
    | some ln, some col => some (ln, col)
    | _, _ => none

/-- `parse_entry` (src/log_parser/parse.rs): parse one trimmed entry line
`line:col severity rule-id message [json-path]`. -/
def parse_entry (trimmed : Str) : Option LintError :=
  match split_whitespace trimmed with
  | loc :: sev :: rule :: rest =>
    match parse_location loc with
    | none => none
    | some (line, col) =>
      let severity := Severity.from_str_lossy sev
      if rest = [] then
        some ⟨line, col, severity, rule, [], none⟩
      else
        let (message, json_path) := split_message_and_path rest
        some ⟨line, col, severity, rule, message, json_path⟩
  | _ => none

/-- `parse_lint_log` (src/log_parser/parse.rs): fold over the input lines,
skipping blank lines, unindented lines and `✖`/`×` summary lines, and
collecting every line `parse_entry` accepts. -/
def parse_lint_log (raw : Str) : List LintError :=
  (rustLines raw).foldl
    (fun errors line =>
      if trimBoth line = [] then errors
      else if ¬ (line.head? = some ' ' ∨ line.head? = some '\t') then errors
      else
        let trimmed := trimStart line
        if trimmed.head? = some '✖' ∨ trimmed.head? = some '×' then errors
        else
          match parse_entry trimmed with
          | some e => errors ++ [e]
          | none => errors)
    []

-- ── Spec indexer (src/spec/types.rs, src/spec/parser.rs) ────────────────

/-- A 1-based line, 0-based column location (src/spec/types.rs `SourceSpan`). -/
structure SourceSpan where
  line : Nat
  col : Nat
deriving DecidableEq, Repr

/-- The span map of src/spec/types.rs `SpecIndex`, modelling `HashMap` as an
association list whose `insert` replaces an existing binding. -/
def insertSpan (m : List (Str × SourceSpan)) (k : Str) (v : SourceSpan) :
    List (Str × SourceSpan) :=
  if m.any (fun kv => kv.1 = k) then
    m.map (fun kv => if kv.1 = k then (k, v) else kv)
  else m ++ [(k, v)]

/-- `HashMap::get` on the association-list model. -/
def findSpan (m : List (Str × SourceSpan)) (k : Str) : Option SourceSpan :=
  (m.find? (fun kv => decide (kv.1 = k))).map (fun kv => kv.2)

/-- src/spec/types.rs `SpecIndex`: the pointer map plus the raw source lines.
The Rust struct has exactly these two fields — notably no version counter. -/
structure SpecIndex where
  spans : List (Str × SourceSpan)
  raw_lines : List Str
deriving DecidableEq, Repr

/-- `leading_spaces` (src/spec/parser.rs): leading spaces and tabs. -/
def leading_spaces (line : Str) : Nat :=
  (line.takeWhile (fun c => c = ' ' ∨ c = '\t')).length

/-- `escape_pointer_segment` / the escaping loop of `build_json_pointer`
(src/spec/parser.rs): `~` → `~0`, `/` → `~1`. -/
def escapePointerChars (key : Str) : Str :=
  key.foldl
    (fun out c =>
      if c = '~' then out ++ ['~', '0']
      else if c = '/' then out ++ ['~', '1']
      else out ++ [c])
    []

/-- `build_json_pointer` (src/spec/parser.rs): join the stack keys, bottom
first, each prefixed by `/` and escaped. -/
def build_json_pointer (stack : List (Nat × Str)) : Str :=
  stack.foldl (fun out kv => out ++ '/' :: escapePointerChars kv.2) []

/-- `extract_yaml_key` (src/spec/parser.rs): returns the key of a trimmed
line and the column offset within the trimmed line (2 after a `- ` prefix). -/
def extract_yaml_key (trimmed : Str) : Option (Str × Nat) :=
  let ec : Str × Nat :=
    match trimmed with
    | '-' :: ' ' :: rest => (rest, 2)
    | _ => (trimmed, 0)
  let effective := ec.1
  let col_offset := ec.2
  match effective with
  | [] => none
  | c :: rest =>
    if c = '"' ∨ c = '\'' then
      let key := rest.takeWhile (fun x => x ≠ c)
      let after := rest.dropWhile (fun x => x ≠ c)
      match after with
      | [] => none
      | _ :: after' => if after'.head? = some ':' then some (key, col_offset) else none
    else
      let candidate := effective.takeWhile (fun x => x ≠ ':')
      let rest' := effective.dropWhile (fun x => x ≠ ':')
      if rest' = [] then none
      else if candidate = [] then none
      else some (trimBoth candidate, col_offset)

/-- The per-line part of the `parse_spec` scan (src/spec/parser.rs lines
16–31): skip blank/comment/flow lines, otherwise indent, key and column. -/
def lineKeyInfo (line : Str) : Option (Nat × Str × Nat) :=
  let trimmed := trimBoth line
  if trimmed = [] ∨ trimmed.head? = some '#' ∨ trimmed.head? = some '{' ∨
      trimmed.head? = some '[' then none
  else
    let indent := leading_spaces line
    match extract_yaml_key trimmed with
    | none => none
    | some (key, off) => some (indent, key, indent + off)

/-- The state threaded through the `parse_spec` loop: the indent stack
(top at the head here; the Rust `Vec` keeps the top at the end) and the
span map built so far. -/
structure ScanState where
  stack : List (Nat × Str)
  spans : List (Str × SourceSpan)

/-- One iteration of the `parse_spec` loop (src/spec/parser.rs lines
15–53): pop frames at same-or-deeper indent, push the new frame, record
the pointer of the new stack. -/
def scanLine (st : ScanState) (p : Nat × Str) : ScanState :=
  match lineKeyInfo p.2 with
  | none => st
  | some (indent, key, col) =>
    let stack := (indent, key) :: st.stack.dropWhile (fun kv => indent ≤ kv.1)
    ⟨stack, insertSpan st.spans (build_json_pointer stack.reverse) ⟨p.1 + 1, col⟩⟩

/-- `parse_spec` (src/spec/parser.rs): scan all lines and build the index.
The Rust function returns `Result` but never errors. -/
def parse_spec (raw : Str) : SpecIndex :=
  let lines := rustLines raw
  ⟨(lines.enum.foldl scanLine ⟨[], []⟩).spans, lines⟩

/-- The `(pointer, span)` pairs recorded by the `parse_spec` scan, in scan
order (same recursion as `scanLine`, emitting instead of inserting). -/
def scanEntriesLoop (stack : List (Nat × Str)) : List (Nat × Str) → List (Str × SourceSpan)
  | [] => []
  | p :: ps =>
    match lineKeyInfo p.2 with
    | none => scanEntriesLoop stack ps
    | some (indent, key, col) =>
      let stack' := (indent, key) :: stack.dropWhile (fun kv => indent ≤ kv.1)
      (build_json_pointer stack'.reverse, ⟨p.1 + 1, col⟩) :: scanEntriesLoop stack' ps

/-- All `(pointer, span)` pairs recorded while indexing `raw`, in order. -/
def scanEntries (raw : Str) : List (Str × SourceSpan) :=
  scanEntriesLoop [] (rustLines raw).enum

/-- The bracket-handling inner loop of `normalize_to_pointer`
(src/spec/parser.rs lines 139–164), applied to one dotted segment.  The
fuel argument only bounds the recursion; each iteration consumes at least
one character, so `seg.length` fuel is never exhausted. -/
def bracketLoop : Nat → Str → Str
  | _, [] => []
  | 0, _ => []
  | fuel + 1, rest =>
    let before := rest.takeWhile (fun c => c ≠ '[')
    let brRest := rest.dropWhile (fun c => c ≠ '[')
    match brRest with
    | [] => '/' :: escapePointerChars rest
    | _ :: tail =>
      let pre := if before = [] then ([] : Str) else '/' :: escapePointerChars before
      let inner := tail.takeWhile (fun c => c ≠ ']')
      let closeRest := tail.dropWhile (fun c => c ≠ ']')
      match closeRest with
      | [] => pre ++ '/' :: escapePointerChars rest
      | _ :: after => pre ++ ('/' :: inner) ++ bracketLoop fuel after

/-- `normalize_to_pointer` (src/spec/parser.rs): pointers pass through,
dotted paths are split on `.`, brackets become separate segments. -/
def normalize_to_pointer (path : Str) : Str :=
  if path.head? = some '/' ∨ path = [] then path
  else
    (splitWhen (fun c => c = '.') path).foldl
      (fun ptr seg => ptr ++ bracketLoop seg.length seg) []

/-- `SpecIndex::resolve` (src/spec/types.rs): normalize, then look up. -/
def SpecIndex.resolve (idx : SpecIndex) (path : Str) : Option SourceSpan :=
  findSpan idx.spans (normalize_to_pointer path)

-- ── Fix engine (src/fix/mod.rs) ─────────────────────────────────────────

/-- A proposed fix (src/fix/mod.rs `FixProposal`). -/
structure FixProposal where
  rule : Str
  description : Str
  target_line : Nat
  context_before : List Str
  inserted : List Str
  context_after : List Str
deriving DecidableEq, Repr

/-- Model of Rust `Vec::insert` (in `apply_fix` the index is always in
range, so the out-of-range case is unreachable). -/
def insert_at : Nat → Str → List Str → List Str
  | 0, a, ls => a :: ls
  | _ + 1, _, [] => []
  | n + 1, a, b :: bs => b :: insert_at n a bs

/-- The insertion loop of `apply_fix` (src/fix/mod.rs lines 65–67): the
`i`-th inserted line goes to index `target_line + i`. -/
def insert_all (t : Nat) (ins : List Str) (lines : List Str) : List Str :=
  match ins with
  | [] => lines
  | x :: xs => insert_all (t + 1) xs (insert_at t x lines)

/-- `apply_fix` (src/fix/mod.rs): split the file into lines, reject a
target beyond the file, insert after `target_line`, rejoin and restore the
trailing newline iff the original had one.  The returned string models the
content written back; an error models the bail with no write. -/
def apply_fix (proposal : FixProposal) (content : Str) : Except Str Str :=
  let lines := rustLines content
  let trailing_newline := content.getLast? = some '\n'
  if lines.length < proposal.target_line then
    Except.error "target_line is beyond file length".toList
  else
    let lines := insert_all proposal.target_line proposal.inserted lines
    let output := joinNl lines
    Except.ok (if trailing_newline then output ++ ['\n'] else output)

-- ── Container runner (src/docker/types.rs, src/docker/run.rs) ───────────

/-- Outcome of a container run (src/docker/types.rs `ContainerResult`). -/
structure ContainerResult where
  success : Bool
  exit_code : Option Int
  log : Str
  cancelled : Bool
  timed_out : Bool
deriving DecidableEq, Repr

/-- Streamed output from a running container (src/docker/types.rs). -/
inductive OutputLine where
  | stdout (s : Str)
  | stderr (s : Str)
  | done (r : ContainerResult)
deriving DecidableEq, Repr

/-- How the `orchestrate` poll loop of src/docker/run.rs ends: normal exit
(with the platform exit code, `none` when signal-killed), a `try_wait`
error, a kill after observing the cancellation flag, or a kill after the
timeout elapsed. -/
inductive ChildTermination where
  | exited (code : Option Int)
  | waitFailed
  | killedCancelled
  | killedTimedOut
deriving DecidableEq, Repr

/-- The observable behaviour of a spawned child process: its output lines
in arrival order (tagged true for stdout) and how the poll loop ends. -/
structure ChildBehavior where
  arrivals : List (Bool × Str)
  term : ChildTermination
deriving DecidableEq, Repr

/-- `orchestrate` (src/docker/run.rs): forward every line over the channel
while accumulating the log (each line plus a newline), then emit exactly
one `done` with the final result. -/
def orchestrate (b : ChildBehavior) : List OutputLine :=
  let items := b.arrivals.map (fun ts => if ts.1 then OutputLine.stdout ts.2 else OutputLine.stderr ts.2)
  let log := b.arrivals.foldl (fun acc ts => acc ++ ts.2 ++ ['\n']) []
  let exit_code :=
    match b.term with
    | .exited c => c
    | _ => none
  items ++ [OutputLine.done
    ⟨exit_code = some 0, exit_code, log,
     b.term = ChildTermination.killedCancelled, b.term = ChildTermination.killedTimedOut⟩]

/-- `spawn` (src/docker/run.rs): if the OS fails to start the child, return
the error — no channel and no `OutputLine` exist; otherwise the channel
carries the `orchestrate` stream. -/
def spawn (os : Except Str ChildBehavior) : Except Str (List OutputLine) :=
  match os with
  | .error e => .error e
  | .ok b => .ok (orchestrate b)

-- ── Configuration (src/config/types.rs) ─────────────────────────────────

/-- src/config/types.rs `Mode`. -/
inductive Mode where
  | server
  | client
  | both
deriving DecidableEq, Repr

/-- `Mode::as_str`. -/
def Mode.as_str : Mode → Str
  | .server => "server".toList
  | .client => "client".toList
  | .both => "both".toList

/-- src/config/types.rs `Linter`. -/
inductive Linter where
  | spectral
  | redocly
  | none
deriving DecidableEq, Repr

/-- `Linter::as_str`. -/
def Linter.as_str : Linter → Str
  | .spectral => "spectral".toList
  | .redocly => "redocly".toList
  | .none => "none".toList

/-- src/config/types.rs `Jobs`. -/
inductive Jobs where
  | auto
  | fixed (n : Nat)
deriving DecidableEq, Repr

/-- `Jobs::resolve` (src/config/types.rs): `avail` models the result of
`std::thread::available_parallelism()` (`some n` with `n ≥ 1` on success,
since the Rust value is a `NonZeroUsize`; `none` on failure). -/
def Jobs.resolve (j : Jobs) (avail : Option Nat) : Nat :=
  match j with
  | .fixed n => n
  | .auto =>
    match avail with
    | some n => min n 4
    | Option.none => 1

/-- The slice of src/config/types.rs `Config` that the orchestrator reads
(images, ruleset and timeout only shape the opaque container commands). -/
structure Config where
  mode : Mode
  lint : Bool
  generate : Bool
  compile : Bool
  linter : Linter
  server_generators : List Str
  client_generators : List Str
  jobs : Jobs
deriving DecidableEq, Repr

/-- `build_generator_list` (src/pipeline/commands.rs): `(generator, scope)`
pairs — servers for `server` mode, clients for `client`, servers then
clients for `both`. -/
def build_generator_list (cfg : Config) : List (Str × Str) :=
  match cfg.mode with
  | .server => cfg.server_generators.map (fun g => (g, "server".toList))
  | .client => cfg.client_generators.map (fun g => (g, "client".toList))
  | .both =>
    cfg.server_generators.map (fun g => (g, "server".toList)) ++
      cfg.client_generators.map (fun g => (g, "client".toList))

-- ── Pipeline types (src/pipeline/types.rs) ──────────────────────────────

/-- src/pipeline/types.rs `Phase`. -/
inductive Phase where
  | lint
  | generate (generator scope : Str)
  | compile (generator scope : Str)
deriving DecidableEq, Repr

/-- src/pipeline/types.rs `LintResult`. -/
structure LintResult where
  linter : Str
  status : Str
  log : Str
deriving DecidableEq, Repr

/-- src/pipeline/types.rs `StepResult`. -/
structure StepResult where
  generator : Str
  scope : Str
  status : Str
  log : Str
deriving DecidableEq, Repr

/-- src/pipeline/types.rs `Summary`. -/
structure Summary where
  total : Nat
  passed : Nat
  failed : Nat
deriving DecidableEq, Repr

/-- src/pipeline/types.rs `Phases`. -/
structure Phases where
  lint : Option LintResult
  generate : Option (List StepResult)
  compile : Option (List StepResult)
deriving DecidableEq, Repr

/-- src/pipeline/types.rs `ValidateReport`. -/
structure ValidateReport where
  spec : Str
  mode : Str
  phases : Phases
  summary : Summary
deriving DecidableEq, Repr

/-- src/pipeline/types.rs `PipelineEvent`. -/
inductive PipelineEvent where
  | phaseStarted (p : Phase)
  | log (p : Phase) (line : Str)
  | phaseFinished (p : Phase) (success : Bool)
  | completed (r : ValidateReport)
  | aborted (reason : Str)
deriving DecidableEq, Repr

/-- Is an event a terminal (`Completed` or `Aborted`) event? -/
def isTerminal : PipelineEvent → Bool
  | .completed _ => true
  | .aborted _ => true
  | _ => false

/-- The phase a non-terminal event carries. -/
def evPhase? : PipelineEvent → Option Phase
  | .phaseStarted p => some p
  | .log p _ => some p
  | .phaseFinished p _ => some p
  | _ => none

-- ── Pipeline orchestrator (src/pipeline/orchestrator.rs) ────────────────

/-- The environment of one pipeline run.  `spawnResult i` is the channel
content (or spawn error) of the `i`-th container started by the run —
the boundary at which the orchestrator meets `docker::spawn`.
`cancelled i` is the result of the `i`-th `CancelToken::is_cancelled` poll
made by the scheduler thread (an arbitrary Boolean sequence, so every
behaviour of the shared flag is covered).  `merge i` chooses the
interleaving, on the shared event channel, of the per-step event lists of
the chunk whose first container is the `i`-th; soundness of a merge
(producing only events of its inputs) is the `MergeSound` hypothesis.
`avail` models `available_parallelism`. -/
structure World where
  spawnResult : Nat → Except Str (List OutputLine)
  cancelled : Nat → Bool
  merge : Nat → List (List PipelineEvent) → List PipelineEvent
  avail : Option Nat

/-- A merge function only interleaves: every event it returns comes from
one of the given per-step event lists. -/
def MergeSound (m : Nat → List (List PipelineEvent) → List PipelineEvent) : Prop :=
  ∀ i ls e, e ∈ m i ls → ∃ l ∈ ls, e ∈ l

/-- Outcome of `run_container` (src/pipeline/orchestrator.rs
`ContainerOutcome`): only success and the collected log. -/
structure ContainerOutcome where
  success : Bool
  log : Str
deriving DecidableEq, Repr

/-- Events emitted by `run_container` paired with its outcome. -/
structure ContOut where
  evs : List PipelineEvent
  outcome : ContainerOutcome
deriving DecidableEq, Repr

/-- The drain loop of `run_container` (src/pipeline/orchestrator.rs lines
238–261): forward each stdout/stderr line as a `Log` event and append it
(plus a newline) to the log; at `Done`, success is the result's success
unless it was cancelled, and an empty accumulated log is replaced by the
container's own log. -/
def drain (phase : Phase) : List OutputLine → Str → ContOut
  | [], log => ⟨[], ⟨false, log⟩⟩
  | .stdout s :: rest, log =>
    let r := drain phase rest (log ++ s ++ ['\n'])
    ⟨.log phase s :: r.evs, r.outcome⟩
  | .stderr s :: rest, log =>
    let r := drain phase rest (log ++ s ++ ['\n'])
    ⟨.log phase s :: r.evs, r.outcome⟩
  | .done res :: _, log =>
    ⟨[], ⟨res.success && !res.cancelled, if log = [] then res.log else log⟩⟩

/-- `run_container` (src/pipeline/orchestrator.rs): a spawn error becomes a
failed outcome with an explanatory log and no events; otherwise drain. -/
def run_container (phase : Phase) (res : Except Str (List OutputLine)) : ContOut :=
  match res with
  | .error e => ⟨[], ⟨false, "Failed to spawn container: ".toList ++ e⟩⟩
  | .ok items => drain phase items []

/-- src/pipeline/orchestrator.rs `StepKind`. -/
inductive StepKind where
  | generate
  | compile
deriving DecidableEq, Repr

/-- The phase of a generate/compile step. -/
def stepPhase (kind : StepKind) (g s : Str) : Phase :=
  match kind with
  | .generate => .generate g s
  | .compile => .compile g s

/-- `"pass"` / `"fail"` status strings. -/
def statusOf (b : Bool) : Str :=
  if b then "pass".toList else "fail".toList

/-- Does a step result record a pass? -/
def isPass (r : StepResult) : Bool := r.status = "pass".toList

/-- The worker closure of `run_steps_parallel` (src/pipeline/orchestrator.rs
lines 184–198): `PhaseStarted`, the container events, `PhaseFinished`, and
the step result.  `i` is the global index of the container it spawns. -/
def run_step (w : World) (kind : StepKind) (i : Nat) (p : Str × Str) :
    List PipelineEvent × StepResult :=
  let phase := stepPhase kind p.1 p.2
  let r := run_container phase (w.spawnResult i)
  (.phaseStarted phase :: r.evs ++ [.phaseFinished phase r.outcome.success],
   ⟨p.1, p.2, statusOf r.outcome.success, r.outcome.log⟩)

/-- Model of slice `chunks`: contiguous chunks of size `n`.  Rust panics on
`n = 0`; that case is unreachable because `Jobs::resolve` always returns a
positive count (the deserializer rejects `jobs: 0` and `auto` resolves to
at least 1), and the pipeline theorems carry that bound as a hypothesis. -/
def chunksOf (n : Nat) (l : List (Str × Str)) : List (List (Str × Str)) :=
  go l.length l
where
  go : Nat → List (Str × Str) → List (List (Str × Str))
    | _, [] => []
    | 0, l => [l]
    | fuel + 1, l => if n = 0 then [l] else l.take n :: go fuel (l.drop n)

/-- Result of the chunk loop: events, step results in order, and the next
spawn and poll counters. -/
structure StepsOut where
  evs : List PipelineEvent
  results : List StepResult
  si : Nat
  ci : Nat

/-- The chunk loop of `run_steps_parallel` (src/pipeline/orchestrator.rs
lines 152–207): poll cancellation before each chunk (breaking if set), run
the chunk's steps on workers (their events interleaved by `w.merge`), and
collect the joined results in order. -/
def run_chunks (w : World) (kind : StepKind) :
    List (List (Str × Str)) → Nat → Nat → StepsOut
  | [], si, ci => ⟨[], [], si, ci⟩
  | chunk :: rest, si, ci =>
    if w.cancelled ci then ⟨[], [], si, ci + 1⟩
    else
      let outs := chunk.enum.map (fun q => run_step w kind (si + q.1) q.2)
      let next := run_chunks w kind rest (si + chunk.length) (ci + 1)
      ⟨w.merge si (outs.map (fun o => o.1)) ++ next.evs,
       outs.map (fun o => o.2) ++ next.results, next.si, next.ci⟩

/-- `run_steps_parallel` (src/pipeline/orchestrator.rs): chunk the step
list by the resolved job count and run the chunk loop. -/
def run_steps_parallel (w : World) (cfg : Config) (gens : List (Str × Str))
    (kind : StepKind) (si ci : Nat) : StepsOut :=
  run_chunks w kind (chunksOf (cfg.jobs.resolve w.avail) gens) si ci

/-- The reason string of a user cancellation. -/
def cancelMsg : Str := "Cancelled by user".toList

/-- Build the `Completed` report event (src/pipeline/orchestrator.rs lines
115–131). -/
def finishReport (cfg : Config) (specName : Str) (ph : Phases) (t p f : Nat) :
    PipelineEvent :=
  .completed ⟨specName, cfg.mode.as_str, ph, ⟨t, p, f⟩⟩

/-- The compile section of `run_inner` (src/pipeline/orchestrator.rs lines
93–112 plus the final report): compile runs only when enabled and every
generate step passed; a cancellation observed right after it aborts. -/
def compile_section (cfg : Config) (specName : Str) (w : World)
    (events : List PipelineEvent) (t p f : Nat) (lintRec : Option LintResult)
    (gRes : List StepResult) (gens : List (Str × Str)) (si ci : Nat) :
    List PipelineEvent :=
  if cfg.compile && gRes.all isPass then
    let out := run_steps_parallel w cfg gens .compile si ci
    if w.cancelled out.ci then events ++ out.evs ++ [.aborted cancelMsg]
    else
      events ++ out.evs ++
        [finishReport cfg specName ⟨lintRec, some gRes, some out.results⟩
          (t + out.results.length)
          (p + out.results.countP isPass)
          (f + out.results.countP (fun r => !isPass r))]
  else events ++ [finishReport cfg specName ⟨lintRec, some gRes, Option.none⟩ t p f]

/-- The generate section of `run_inner` (src/pipeline/orchestrator.rs lines
70–113 plus the final report). -/
def generate_section (cfg : Config) (specName : Str) (w : World)
    (events : List PipelineEvent) (t p f : Nat) (lintRec : Option LintResult)
    (si ci : Nat) : List PipelineEvent :=
  let gens := build_generator_list cfg
  if cfg.generate && !gens.isEmpty then
    let out := run_steps_parallel w cfg gens .generate si ci
    if w.cancelled out.ci then events ++ out.evs ++ [.aborted cancelMsg]
    else
      compile_section cfg specName w (events ++ out.evs)
        (t + out.results.length)
        (p + out.results.countP isPass)
        (f + out.results.countP (fun r => !isPass r))
        lintRec out.results gens out.si (out.ci + 1)
  else events ++ [finishReport cfg specName ⟨lintRec, Option.none, Option.none⟩ t p f]

/-- `run_inner` (src/pipeline/orchestrator.rs): the whole pipeline worker.
`specName` is the basename of the spec path.  The value is the full
sequence of events sent on the pipeline channel. -/
def run_inner (cfg : Config) (specName : Str) (w : World) : List PipelineEvent :=
  if cfg.lint && !(cfg.linter = Linter.none) then
    let r := run_container .lint (w.spawnResult 0)
    let events := .phaseStarted Phase.lint :: r.evs ++
      [.phaseFinished Phase.lint r.outcome.success]
    let lintRec : Option LintResult :=
      some ⟨cfg.linter.as_str, statusOf r.outcome.success, r.outcome.log⟩
    if w.cancelled 0 then events ++ [.aborted cancelMsg]
    else
      generate_section cfg specName w events 1
        (if r.outcome.success then 1 else 0)
        (if r.outcome.success then 0 else 1) lintRec 1 1
  else generate_section cfg specName w [] 0 0 0 Option.none 0 0

-- ── Claim-side definitions ──────────────────────────────────────────────

/-- The trailing-token condition of the amended C5 claim: a nonempty token
that starts with `/`, contains `[`, or still contains a `.` after all
trailing `.` characters are stripped (an interior dot). -/
def trailingPathTrigger (t : Str) : Bool :=
  decide (t ≠ []) &&
    (decide (t.head? = some '/') || hasChar t '[' || hasChar (trimEndDots t) '.')

/-- The per-line counting function of C6, written from the claim's words:
an indented, non-blank, non-summary line contributes iff the entry grammar
(`parse_entry`) accepts its trimmed form. -/
def matched_entry_line (line : Str) : Option LintError :=
  if (line.head? = some ' ' ∨ line.head? = some '\t') ∧ trimBoth line ≠ [] ∧
      ¬((trimStart line).head? = some '✖' ∨ (trimStart line).head? = some '×') then
    parse_entry (trimStart line)
  else none

/-- The YAML source of the C10 concrete scenario: two array items whose
keys collapse to the same pointer. -/
def tagsExample : Str := "tags:\n  - name: a\n  - name: b\n".toList

/-- A one-line insertion proposal at line 1 (C8 counterexamples). -/
def crlfProposal : FixProposal :=
  ⟨"operation-summary".toList, "add summary".toList, 1, [], ["x".toList], []⟩

/-- A proposal whose single inserted "line" contains an embedded newline
(C8 counterexamples). -/
def embeddedNlProposal : FixProposal :=
  ⟨"operation-summary".toList, "add summary".toList, 1, [], ["x\ny".toList], []⟩

-- ── Supporting lemmas ───────────────────────────────────────────────────

theorem hasChar_of_trimEndDots (t : Str) (c : Char)
    (h : hasChar (trimEndDots t) c = true) : hasChar t c = true := by
  unfold hasChar trimEndDots at *
  rw [List.any_eq_true] at h ⊢
  obtain ⟨x, hx, hxc⟩ := h
  rw [List.mem_reverse] at hx
  exact ⟨x, by rw [← List.mem_reverse]; exact (List.dropWhile_sublist _).subset hx, hxc⟩

theorem looks_like_eq_trigger (t : Str) :
    looks_like_json_path t = trailingPathTrigger t := by
  unfold looks_like_json_path trailingPathTrigger
  by_cases h0 : t = []
  · simp [h0, hasChar]
  · by_cases h1 : t.head? = some '/'
    · simp [h0, h1]
    · by_cases h2 : hasChar t '[' = true
      · simp [h0, h1, h2]
      · by_cases h3 : hasChar (trimEndDots t) '.' = true
        · simp [h0, h1, h2, h3, hasChar_of_trimEndDots t '.' h3]
        · simp [h0, h1, h2, h3]

-- ── C3 ──────────────────────────────────────────────────────────────────

/-- C3 counterexample: when spawning fails, `spawn` returns the error —
there is no output channel at all, so no `Done` (with any outcome) is
emitted, contrary to the claim that "a single `Done` is emitted directly". -/
theorem spawn_failure_emits_no_done :
    spawn (Except.error "failed to spawn docker process".toList) =
      Except.error "failed to spawn docker process".toList ∧
    (spawn (Except.error "failed to spawn docker process".toList)).isOk = false :=
  ⟨rfl, rfl⟩

/-- C3 (amended): if spawning the container process fails, `spawn` returns
the error instead of a channel, so the runner emits no `Stdout`/`Stderr`
and no `Done`; the orchestrator's `run_container` turns the error into an
outcome with `success = false` and log `"Failed to spawn container: <e>"`,
emitting no `Log` events; neither function panics. -/
theorem run_container_spawn_failure (e : Str) (phase : Phase) :
    spawn (Except.error e) = Except.error e ∧
    run_container phase (spawn (Except.error e)) =
      ⟨[], ⟨false, "Failed to spawn container: ".toList ++ e⟩⟩ :=
  ⟨rfl, rfl⟩

-- ── C4 ──────────────────────────────────────────────────────────────────

/-- C4: evaluating `parse_spec` shows the complete index it builds — a
span map and the raw lines, nothing else.  `SpecIndex` (src/spec/types.rs)
has no version field and `parse_spec` maintains no counter, so rebuilding
from equal content yields an identical index: no monotonically increasing
version distinguishes rebuilds, even though src/ui/panels/spec_context.rs
calls `spec_index.version()` and the spec promises such a counter. -/
theorem parse_spec_has_no_version_counter :
    parse_spec "openapi: 3.0.0\n".toList =
      ⟨[("/openapi".toList, ⟨1, 0⟩)], ["openapi: 3.0.0".toList]⟩ := by
  decide

-- ── C5 ──────────────────────────────────────────────────────────────────

/-- C5 counterexample: `info.contact` has a single `.`, does not start
with `/` and has no `[`, so by the claim it must stay in the message — yet
the code reclassifies it as the JSON path.  Conversely `a..` contains two
`.` characters, so by the claim it must become the path — yet the code
keeps it in the message.  A single path-like token (`/x`) is also never
reclassified.  The full parser shows the same on a complete entry line. -/
theorem split_message_and_path_dot_counterexample :
    (split_message_and_path ["Bad".toList, "info.contact".toList]).2 =
      some "info.contact".toList ∧
    "info.contact".toList.count '.' < 2 ∧
    "info.contact".toList.head? ≠ some '/' ∧
    hasChar "info.contact".toList '[' = false ∧
    (split_message_and_path ["msg".toList, "a..".toList]).2 = Option.none ∧
    2 ≤ "a..".toList.count '.' ∧
    (split_message_and_path ["/x".toList]).2 = Option.none ∧
    (parse_lint_log "/f.yaml\n  1:2  error  some-rule  Bad info.contact\n".toList).map
        (fun e => e.json_path) = [some "info.contact".toList] := by
  decide

/-- C5 (amended): after the `line:col`, severity and rule tokens are
consumed, the trailing token of the remainder is reclassified as the JSON
path iff the remainder has at least two tokens and the trailing token is
nonempty and either starts with `/`, contains `[`, or contains a `.` that
survives stripping all trailing `.` characters (an interior dot); a
single-token remainder always stays in the message. -/
theorem split_message_and_path_spec (tokens : List Str) :
    split_message_and_path tokens =
      if 1 < tokens.length ∧ trailingPathTrigger (tokens.getLastD []) = true then
        (joinSpace tokens.dropLast, some (tokens.getLastD []))
      else (joinSpace tokens, none) := by
  by_cases hl : 1 < tokens.length
  · by_cases ht : trailingPathTrigger (tokens.getLastD []) = true
    · simp [split_message_and_path, looks_like_eq_trigger, hl, ht]
    · simp [split_message_and_path, looks_like_eq_trigger, hl, ht]
  · simp [split_message_and_path, hl]

-- ── C8 counterexample ───────────────────────────────────────────────────

/-- C8 counterexample.  First: a CRLF file — `apply_fix` on `"a\r\n"` with
one inserted line `"x"` (target line 1 ≤ 1 line) writes `"a\nx\n"`, 4
bytes, while the claim demands `3 + (1 + 1) = 5` bytes.  Second: an
inserted "line" with an embedded newline — applying it to `"a\n"` yields a
file of 3 lines, while the claim demands `1 + 1 = 2`. -/
theorem apply_fix_length_counterexample :
    apply_fix crlfProposal "a\r\n".toList = Except.ok "a\nx\n".toList ∧
    crlfProposal.target_line ≤ (rustLines "a\r\n".toList).length ∧
    "a\nx\n".toList.length ≠
      "a\r\n".toList.length + ("x".toList.length + 1) ∧
    apply_fix embeddedNlProposal "a\n".toList = Except.ok "a\nx\ny\n".toList ∧
    embeddedNlProposal.target_line ≤ (rustLines "a\n".toList).length ∧
    (rustLines "a\nx\ny\n".toList).length ≠
      (rustLines "a\n".toList).length + embeddedNlProposal.inserted.length :=
  ⟨rfl, by decide, by decide, rfl, by decide, by decide⟩

-- ── C9 ──────────────────────────────────────────────────────────────────

/-- C9: on the four-line YAML source, the index resolves the pointer form
`/paths/~1pets/get/summary` to line 4, column 6, and the dotted form
`paths./pets.get.summary` normalizes to the same pointer and resolves to
the same span. -/
theorem resolve_pets_summary :
    (parse_spec "paths:\n  /pets:\n    get:\n      summary: Foo\n".toList).resolve
        "/paths/~1pets/get/summary".toList = some ⟨4, 6⟩ ∧
    (parse_spec "paths:\n  /pets:\n    get:\n      summary: Foo\n".toList).resolve
        "paths./pets.get.summary".toList = some ⟨4, 6⟩ ∧
    normalize_to_pointer "paths./pets.get.summary".toList =
      "/paths/~1pets/get/summary".toList := by
  decide

-- ── C6 ──────────────────────────────────────────────────────────────────

theorem foldl_append_toList {α β : Type} (F : List β → α → List β)
    (g : α → Option β) (hF : ∀ acc x, F acc x = acc ++ (g x).toList) :
    ∀ (ls : List α) (acc : List β), ls.foldl F acc = acc ++ ls.filterMap g := by
  intro ls
  induction ls with
  | nil => simp
  | cons x xs ih =>
    intro acc
    rw [List.foldl_cons, hF, ih, List.append_assoc]
    cases hx : g x <;> simp [List.filterMap_cons, hx]

theorem length_filterMap_eq_length_filter {α β : Type} (g : α → Option β) :
    ∀ ls : List α,
      (ls.filterMap g).length = (ls.filter (fun l => (g l).isSome)).length := by
  intro ls
  induction ls with
  | nil => rfl
  | cons x xs ih => cases hx : g x <;> simp [List.filterMap_cons, hx, ih]

/-- C6: `parse_lint_log` is a total function, its output is exactly the
per-line findings of the indented, non-blank, non-summary lines accepted
by the entry grammar, in source order — so its length equals the number of
such lines — and in particular empty input yields the empty list. -/
theorem parse_lint_log_counts_entry_lines (raw : Str) :
    parse_lint_log raw = (rustLines raw).filterMap matched_entry_line ∧
    (parse_lint_log raw).length =
      ((rustLines raw).filter (fun l => (matched_entry_line l).isSome)).length ∧
    parse_lint_log [] = [] := by
  have h : parse_lint_log raw = (rustLines raw).filterMap matched_entry_line := by
    unfold parse_lint_log
    refine foldl_append_toList _ matched_entry_line ?_ (rustLines raw) []
    intro acc line
    unfold matched_entry_line
    by_cases hb : trimBoth line = []
    · simp [hb]
    · by_cases hi : line.head? = some ' ' ∨ line.head? = some '\t'
      · by_cases hs : (trimStart line).head? = some '✖' ∨ (trimStart line).head? = some '×'
        · simp [hb, hi, hs]
        · cases he : parse_entry (trimStart line) <;> simp [hb, hi, hs, he]
      · simp [hb, hi]
  exact ⟨h, by rw [h]; exact length_filterMap_eq_length_filter _ _, rfl⟩


-- ── C10 ─────────────────────────────────────────────────────────────────

theorem findSpan_nil (q : Str) : findSpan [] q = none := rfl

theorem findSpan_cons (kv : Str × SourceSpan) (m : List (Str × SourceSpan)) (q : Str) :
    findSpan (kv :: m) q = if kv.1 = q then some kv.2 else findSpan m q := by
  by_cases h : kv.1 = q
  · simp [findSpan, List.find?, h]
  · simp [findSpan, List.find?, h]

theorem find?_append {α : Type} (p : α → Bool) :
    ∀ l₁ l₂ : List α, (l₁ ++ l₂).find? p =
      match l₁.find? p with
      | some a => some a
      | none => l₂.find? p := by
  intro l₁ l₂
  induction l₁ with
  | nil => simp
  | cons a l ih =>
    by_cases h : p a = true
    · simp [List.find?, h]
    · simp only [Bool.not_eq_true] at h
      simp [List.find?, h, ih]

theorem findSpan_map_replace_ne (m : List (Str × SourceSpan)) (k : Str)
    (v : SourceSpan) (q : Str) (hq : q ≠ k) :
    findSpan (m.map (fun kv => if kv.1 = k then (k, v) else kv)) q = findSpan m q := by
  have hkq : ¬ (k = q) := fun h => hq h.symm
  induction m with
  | nil => rfl
  | cons kv m ih =>
    by_cases hk : kv.1 = k
    · rw [List.map_cons, if_pos hk, findSpan_cons, findSpan_cons]
      simp only [hkq, if_false, hk]
      simpa [hkq] using ih
    · rw [List.map_cons, if_neg hk, findSpan_cons, findSpan_cons]
      by_cases hq2 : kv.1 = q
      · simp [hq2]
      · simp [hq2, ih]

theorem findSpan_map_replace_hit (m : List (Str × SourceSpan)) (k : Str)
    (v : SourceSpan) (h : m.any (fun kv => decide (kv.1 = k)) = true) :
    findSpan (m.map (fun kv => if kv.1 = k then (k, v) else kv)) k = some v := by
  induction m with
  | nil => simp at h
  | cons kv m ih =>
    by_cases hk : kv.1 = k
    · rw [List.map_cons, if_pos hk, findSpan_cons, if_pos (rfl : (k, v).1 = k)]
    · rw [List.map_cons, if_neg hk, findSpan_cons, if_neg hk]
      simp only [List.any_cons, Bool.or_eq_true, decide_eq_true_eq] at h
      rcases h with h | h
      · exact absurd h hk
      · exact ih h

theorem findSpan_append_one_ne (m : List (Str × SourceSpan)) (k : Str)
    (v : SourceSpan) (q : Str) (hq : q ≠ k) :
    findSpan (m ++ [(k, v)]) q = findSpan m q := by
  induction m with
  | nil =>
    rw [List.nil_append, findSpan_cons, if_neg (fun h : (k, v).1 = q => hq h.symm)]
  | cons kv m ih =>
    rw [List.cons_append, findSpan_cons, findSpan_cons, ih]

theorem findSpan_append_one_hit (m : List (Str × SourceSpan)) (k : Str)
    (v : SourceSpan) (h : m.any (fun kv => decide (kv.1 = k)) = false) :
    findSpan (m ++ [(k, v)]) k = some v := by
  induction m with
  | nil => simp [findSpan_cons]
  | cons kv m ih =>
    simp only [List.any_cons, Bool.or_eq_false_iff, decide_eq_false_iff_not] at h
    rw [List.cons_append, findSpan_cons, if_neg h.1]
    exact ih (by simp [h.2])

theorem findSpan_insertSpan (m : List (Str × SourceSpan)) (k : Str)
    (v : SourceSpan) (q : Str) :
    findSpan (insertSpan m k v) q = if q = k then some v else findSpan m q := by
  unfold insertSpan
  by_cases hany : m.any (fun kv => decide (kv.1 = k)) = true
  · by_cases hq : q = k
    · subst hq; simp [hany, findSpan_map_replace_hit m q v hany]
    · simp [hany, hq, findSpan_map_replace_ne m k v q hq]
  · simp only [Bool.not_eq_true] at hany
    by_cases hq : q = k
    · subst hq; simp [hany, findSpan_append_one_hit m q v hany]
    · simp [hany, hq, findSpan_append_one_ne m k v q hq]

theorem foldl_scanLine_spans (ps : List (Nat × Str)) :
    ∀ stk sp, (ps.foldl scanLine ⟨stk, sp⟩).spans =
      (scanEntriesLoop stk ps).foldl (fun m e => insertSpan m e.1 e.2) sp := by
  induction ps with
  | nil => intro stk sp; simp [scanEntriesLoop]
  | cons p ps ih =>
    intro stk sp
    rw [List.foldl_cons]
    cases h : lineKeyInfo p.2 with
    | none => simp [scanLine, scanEntriesLoop, h, ih]
    | some x =>
      obtain ⟨indent, key, col⟩ := x
      simp [scanLine, scanEntriesLoop, h, ih]

theorem findSpan_foldl_insert (es : List (Str × SourceSpan)) :
    ∀ (sp : List (Str × SourceSpan)) (k : Str),
      findSpan (es.foldl (fun m e => insertSpan m e.1 e.2) sp) k =
        match es.reverse.find? (fun e => decide (e.1 = k)) with
        | some e => some e.2
        | none => findSpan sp k := by
  induction es with
  | nil => intro sp k; simp
  | cons e es ih =>
    intro sp k
    rw [List.foldl_cons, ih, List.reverse_cons, find?_append]
    cases hfind : es.reverse.find? (fun x => decide (x.1 = k)) with
    | some x => simp
    | none =>
      rw [findSpan_insertSpan]
      by_cases hk : k = e.1
      · simp [List.find?, hk]
      · have h2 : decide (e.1 = k) = false := by
          simp only [decide_eq_false_iff_not]
          exact fun h => hk h.symm
        simp [List.find?, hk, h2]

/-- C10: array-item lines contribute only their key (no numeric index
segment), so distinct source lines can produce the same JSON pointer, and
the index then maps that pointer to the span of the textually last such
line: looking up any pointer returns the span of the last scan entry
carrying it.  On the two-array-item example the collapsed pointer
`/tags/name` resolves to the second item's line and no numeric-index
pointer exists. -/
theorem parse_spec_last_line_wins :
    (∀ raw ptr,
      findSpan (parse_spec raw).spans ptr =
        ((scanEntries raw).reverse.find? (fun e => decide (e.1 = ptr))).map
          (fun e => e.2)) ∧
    ((parse_spec tagsExample).resolve "/tags/name".toList = some ⟨3, 4⟩ ∧
     (parse_spec tagsExample).resolve "/tags/0/name".toList = Option.none ∧
     (parse_spec tagsExample).resolve "/tags/1/name".toList = Option.none ∧
     scanEntries tagsExample =
       [("/tags".toList, ⟨1, 0⟩), ("/tags/name".toList, ⟨2, 4⟩),
        ("/tags/name".toList, ⟨3, 4⟩)]) := by
  constructor
  · intro raw ptr
    show findSpan ((rustLines raw).enum.foldl scanLine ⟨[], []⟩).spans ptr = _
    rw [foldl_scanLine_spans, findSpan_foldl_insert]
    cases hfind : (scanEntries raw).reverse.find? (fun e => decide (e.1 = ptr)) with
    | some x =>
      unfold scanEntries at hfind
      rw [hfind]
      simp
    | none =>
      unfold scanEntries at hfind
      rw [hfind]
      rfl
  · exact ⟨by decide, by decide, by decide, by decide⟩

-- ── C8 supporting lemmas ────────────────────────────────────────────────

theorem hasChar_eq_false_iff (s : Str) (c : Char) :
    hasChar s c = false ↔ c ∉ s := by
  unfold hasChar
  rw [← Bool.not_eq_true, List.any_eq_true]
  constructor
  · intro h hc; exact h ⟨c, hc, by simp⟩
  · rintro h ⟨x, hx, hxc⟩
    simp only [decide_eq_true_eq] at hxc
    exact h (hxc ▸ hx)

theorem splitWhen_ne_nil (p : Char → Bool) : ∀ s : Str, splitWhen p s ≠ [] := by
  intro s
  induction s with
  | nil => simp [splitWhen]
  | cons c cs ih =>
    by_cases h : p c = true
    · simp [splitWhen, h]
    · simp only [Bool.not_eq_true] at h
      simp only [splitWhen, h]
      cases hr : splitWhen p cs with
      | nil => exact absurd hr ih
      | cons a l => simp

theorem joinNl_cons_of_ne_nil (l : Str) (ls : List Str) (h : ls ≠ []) :
    joinNl (l :: ls) = l ++ '\n' :: joinNl ls := by
  cases ls with
  | nil => exact absurd rfl h
  | cons a t => rfl

theorem joinSpace_cons_of_ne_nil (w : Str) (ws : List Str) (h : ws ≠ []) :
    joinSpace (w :: ws) = w ++ ' ' :: joinSpace ws := by
  cases ws with
  | nil => exact absurd rfl h
  | cons a t => rfl

theorem joinNl_splitWhen (s : Str) :
    joinNl (splitWhen (fun c => c = '\n') s) = s := by
  induction s with
  | nil => rfl
  | cons c cs ih =>
    by_cases h : c = '\n'
    · subst h
      have hd : splitWhen (fun c => c = '\n') ('\n' :: cs) =
          [] :: splitWhen (fun c => c = '\n') cs := by
        simp [splitWhen]
      rw [hd, joinNl_cons_of_ne_nil _ _ (splitWhen_ne_nil _ cs), ih]
      rfl
    · have hd : splitWhen (fun c => c = '\n') (c :: cs) =
          (splitWhen (fun c => c = '\n') cs).modifyHead (fun r => c :: r) := by
        simp [splitWhen, h]
      rw [hd]
      cases hr : splitWhen (fun c => c = '\n') cs with
      | nil => exact absurd hr (splitWhen_ne_nil _ cs)
      | cons a t =>
        rw [hr] at ih
        cases t with
        | nil =>
          simp only [List.modifyHead]
          simp only [joinNl] at ih ⊢
          rw [ih]
        | cons b t' =>
          simp only [List.modifyHead]
          rw [joinNl_cons_of_ne_nil _ _ (by simp), List.cons_append]
          rw [joinNl_cons_of_ne_nil _ _ (by simp)] at ih
          rw [ih]

theorem splitWhen_pieces_free (p : Char → Bool) :
    ∀ (s : Str) (l : Str), l ∈ splitWhen p s → ∀ c ∈ l, p c = false := by
  intro s
  induction s with
  | nil =>
    intro l hl c hc
    simp [splitWhen] at hl
    subst hl
    simp at hc
  | cons x cs ih =>
    intro l hl c hc
    by_cases h : p x = true
    · simp only [splitWhen, h, if_true, List.mem_cons] at hl
      rcases hl with hl | hl
      · subst hl; simp at hc
      · exact ih l hl c hc
    · simp only [Bool.not_eq_true] at h
      simp only [splitWhen, h, Bool.false_eq_true, if_false] at hl
      cases hr : splitWhen p cs with
      | nil => exact absurd hr (splitWhen_ne_nil _ cs)
      | cons a t =>
        rw [hr] at hl
        simp only [List.modifyHead, List.mem_cons] at hl
        rcases hl with hl | hl
        · subst hl
          rcases List.mem_cons.mp hc with hc | hc
          · subst hc; exact h
          · exact ih a (by rw [hr]; exact List.mem_cons_self a t) c hc
        · exact ih l (by rw [hr]; exact List.mem_cons_of_mem a hl) c hc

theorem mem_joinNl_of_mem : ∀ (ls : List Str) (l : Str), l ∈ ls →
    ∀ c ∈ l, c ∈ joinNl ls := by
  intro ls
  induction ls with
  | nil => intro l hl; simp at hl
  | cons a t ih =>
    intro l hl c hc
    cases t with
    | nil =>
      simp only [List.mem_singleton] at hl
      subst hl
      simpa [joinNl] using hc
    | cons b t' =>
      rw [joinNl_cons_of_ne_nil _ _ (by simp), List.mem_append]
      rcases List.mem_cons.mp hl with hl | hl
      · subst hl; exact Or.inl hc
      · exact Or.inr (List.mem_cons_of_mem _ (ih l hl c hc))

theorem splitWhen_append_sep (p : Char → Bool) (sep : Char) (hsep : p sep = true) :
    ∀ (a r : Str), (∀ c ∈ a, p c = false) →
      splitWhen p (a ++ sep :: r) = a :: splitWhen p r := by
  intro a
  induction a with
  | nil => intro r _; simp [splitWhen, hsep]
  | cons x a' ih =>
    intro r hfree
    have hx : p x = false := hfree x (List.mem_cons_self x a')
    have hrec := ih r (fun c hc => hfree c (List.mem_cons_of_mem x hc))
    simp only [List.cons_append, splitWhen, hx, Bool.false_eq_true, if_false]
    rw [show List.append a' (sep :: r) = a' ++ sep :: r from rfl, hrec]
    rfl

theorem splitWhen_nosep (p : Char → Bool) :
    ∀ a : Str, (∀ c ∈ a, p c = false) → splitWhen p a = [a] := by
  intro a
  induction a with
  | nil => intro _; rfl
  | cons x a' ih =>
    intro hfree
    have hx : p x = false := hfree x (List.mem_cons_self x a')
    have hrec := ih (fun c hc => hfree c (List.mem_cons_of_mem x hc))
    simp [splitWhen, hx, hrec]

theorem splitWhen_joinNl (ls : List Str) (hne : ls ≠ [])
    (hfree : ∀ l ∈ ls, ∀ c ∈ l, c ≠ '\n') :
    splitWhen (fun c => c = '\n') (joinNl ls) = ls := by
  induction ls with
  | nil => exact absurd rfl hne
  | cons a t ih =>
    have ha : ∀ c ∈ a, (fun c => decide (c = '\n')) c = false := by
      intro c hc
      simp [hfree a (List.mem_cons_self a t) c hc]
    cases t with
    | nil => exact splitWhen_nosep _ a ha
    | cons b t' =>
      rw [joinNl_cons_of_ne_nil _ _ (by simp),
        splitWhen_append_sep _ '\n' (by simp) a _ ha,
        ih (by simp) (fun l hl c hc => hfree l (List.mem_cons_of_mem a hl) c hc)]

theorem joinNl_concat_nil (A : List Str) (hne : A ≠ []) :
    joinNl (A ++ [[]]) = joinNl A ++ ['\n'] := by
  induction A with
  | nil => exact absurd rfl hne
  | cons a A' ih =>
    cases A' with
    | nil => rfl
    | cons b t =>
      rw [List.cons_append, joinNl_cons_of_ne_nil _ _ (by simp),
        joinNl_cons_of_ne_nil _ _ (by simp), ih (by simp)]
      simp

theorem joinNl_getLast? (ls : List Str) (lp : Str) (hlast : ls.getLast? = some lp)
    (hlp : lp ≠ []) : (joinNl ls).getLast? = lp.getLast? := by
  induction ls with
  | nil => simp at hlast
  | cons a t ih =>
    cases t with
    | nil =>
      simp only [List.getLast?_singleton] at hlast
      injection hlast with h
      subst h
      rfl
    | cons b t' =>
      have h2 : (b :: t').getLast? = some lp := by
        simpa using hlast
      rw [joinNl_cons_of_ne_nil _ _ (by simp)]
      have hjoin : '\n' :: joinNl (b :: t') ≠ [] := by simp
      rw [List.getLast?_append_of_ne_nil _ hjoin]
      have hne2 : joinNl (b :: t') ≠ [] := by
        intro hempty
        have := ih h2
        rw [hempty] at this
        simp only [List.getLast?_nil] at this
        exact hlp (List.getLast?_eq_none_iff.mp this.symm)
      cases hj : joinNl (b :: t') with
      | nil => exact absurd hj hne2
      | cons y ys =>
        rw [← hj, show ('\n' :: joinNl (b :: t')) = ['\n'] ++ joinNl (b :: t') from rfl,
          List.getLast?_append_of_ne_nil _ hne2]
        rw [← ih h2]

theorem joinNl_length (ls : List Str) (hne : ls ≠ []) :
    (joinNl ls).length + 1 = (ls.map List.length).sum + ls.length := by
  induction ls with
  | nil => exact absurd rfl hne
  | cons a t ih =>
    cases t with
    | nil => simp [joinNl]
    | cons b t' =>
      rw [joinNl_cons_of_ne_nil _ _ (by simp)]
      have := ih (by simp)
      simp only [List.length_append, List.length_cons, List.map_cons, List.sum_cons] at this ⊢
      omega

theorem stripCR_eq_self (l : Str) (h : '\r' ∉ l) : stripCR l = l := by
  unfold stripCR
  cases hl : l.getLast? with
  | none => simp
  | some c =>
    by_cases hc : c = '\r'
    · subst hc
      obtain ⟨hne, heq⟩ := List.mem_getLast?_eq_getLast
        (show '\r' ∈ l.getLast? by rw [Option.mem_def, hl])
      exact absurd (heq ▸ List.getLast_mem hne) h
    · simp [hl, hc]

theorem map_stripCR_id (ls : List Str) (h : ∀ l ∈ ls, '\r' ∉ l) :
    ls.map stripCR = ls := by
  induction ls with
  | nil => rfl
  | cons a t ih =>
    rw [List.map_cons, stripCR_eq_self a (h a (List.mem_cons_self a t)),
      ih (fun l hl => h l (List.mem_cons_of_mem a hl))]

/-- `rustLines` of a newline-terminated join recovers the lines. -/
theorem rustLines_joinNl_newline (ls : List Str) (hne : ls ≠ [])
    (hfree : ∀ l ∈ ls, ∀ c ∈ l, c ≠ '\n')
    (hcr : ∀ l ∈ ls, '\r' ∉ l) :
    rustLines (joinNl ls ++ ['\n']) = ls := by
  unfold rustLines
  have hps : splitWhen (fun c => c = '\n') (joinNl ls ++ ['\n']) = ls ++ [[]] := by
    rw [← joinNl_concat_nil ls hne]
    refine splitWhen_joinNl (ls ++ [[]]) (by simp) ?_
    intro l hl c hc
    rcases List.mem_append.mp hl with hl | hl
    · exact hfree l hl c hc
    · simp only [List.mem_singleton] at hl
      subst hl
      simp at hc
  rw [hps]
  simp only [List.dropLast_concat, List.getLast?_concat]
  rw [map_stripCR_id ls hcr]
  simp

/-- `rustLines` of a join without trailing newline recovers the lines,
provided the last line is non-empty. -/
theorem rustLines_joinNl_plain (ls : List Str) (hne : ls ≠ [])
    (hfree : ∀ l ∈ ls, ∀ c ∈ l, c ≠ '\n')
    (hcr : ∀ l ∈ ls, '\r' ∉ l)
    (hlast : ∀ lp, ls.getLast? = some lp → lp ≠ []) :
    rustLines (joinNl ls) = ls := by
  unfold rustLines
  rw [splitWhen_joinNl ls hne hfree]
  cases hl : ls.getLast? with
  | none => exact absurd (List.getLast?_eq_none_iff.mp hl) hne
  | some lp =>
    have hlp := hlast lp hl
    cases hlpc : lp with
    | nil => exact absurd hlpc hlp
    | cons x xs =>
      subst hlpc
      dsimp only
      rw [hl, map_stripCR_id _ (fun l hll => hcr l (List.dropLast_subset ls hll))]
      exact List.dropLast_append_getLast? _ (by rw [Option.mem_def, hl])

theorem insert_at_eq (x : Str) :
    ∀ (t : Nat) (lines : List Str), t ≤ lines.length →
      insert_at t x lines = lines.take t ++ x :: lines.drop t := by
  intro t
  induction t with
  | zero => intro lines _; rfl
  | succ n ih =>
    intro lines ht
    cases lines with
    | nil => simp at ht
    | cons b bs =>
      simp only [insert_at, List.take_succ_cons, List.drop_succ_cons, List.cons_append]
      rw [ih bs (by simp at ht; omega)]

theorem take_len_succ_append (A B : List Str) (x : Str) :
    (A ++ x :: B).take (A.length + 1) = A ++ [x] := by
  induction A with
  | nil => rfl
  | cons a A' ih => simpa using ih

theorem drop_len_succ_append (A B : List Str) (x : Str) :
    (A ++ x :: B).drop (A.length + 1) = B := by
  induction A with
  | nil => rfl
  | cons a A' ih => simp only [List.cons_append, List.length_cons, List.drop_succ_cons]; exact ih

theorem insert_all_eq :
    ∀ (ins : List Str) (t : Nat) (lines : List Str), t ≤ lines.length →
      insert_all t ins lines = lines.take t ++ ins ++ lines.drop t := by
  intro ins
  induction ins with
  | nil => intro t lines _; simp [insert_all]
  | cons x xs ih =>
    intro t lines ht
    rw [insert_all, insert_at_eq x t lines ht]
    have hlen : (lines.take t).length = t := by
      rw [List.length_take]
      omega
    have ht' : t + 1 ≤ (lines.take t ++ x :: lines.drop t).length := by
      simp
      omega
    rw [ih (t + 1) _ ht']
    rw [show t + 1 = (lines.take t).length + 1 by rw [hlen]]
    rw [take_len_succ_append, drop_len_succ_append]
    simp

theorem mem_of_getLast?_eq {α : Type} (l : List α) (a : α) (h : l.getLast? = some a) :
    a ∈ l := by
  obtain ⟨hne, heq⟩ := List.mem_getLast?_eq_getLast
    (show a ∈ l.getLast? by rw [Option.mem_def, h])
  exact heq ▸ List.getLast_mem hne

theorem joinNl_getLast_ne_newline (ls : List Str) (hne : ls ≠ [])
    (hfree : ∀ l ∈ ls, ∀ c ∈ l, c ≠ '\n')
    (hlast : ∀ lp, ls.getLast? = some lp → lp ≠ []) :
    (joinNl ls).getLast? ≠ some '\n' := by
  cases hl : ls.getLast? with
  | none => exact absurd (List.getLast?_eq_none_iff.mp hl) hne
  | some lp =>
    have hlp := hlast lp hl
    rw [joinNl_getLast? ls lp hl hlp]
    cases hc : lp.getLast? with
    | none => simp
    | some c =>
      have hcm : c ∈ lp := mem_of_getLast?_eq lp c hc
      have hlm : lp ∈ ls := mem_of_getLast?_eq ls lp hl
      have := hfree lp hlm c hcm
      simp [this]

theorem sum_map_len_succ (ins : List Str) :
    (ins.map (fun l => l.length + 1)).sum = (ins.map List.length).sum + ins.length := by
  induction ins with
  | nil => rfl
  | cons a t ih =>
    simp only [List.map_cons, List.sum_cons, List.length_cons, ih]
    omega

theorem getLast?_eq_getLast?_drop (l : List Str) (t : Nat) (h : l.drop t ≠ []) :
    l.getLast? = (l.drop t).getLast? := by
  conv_lhs => rw [← List.take_append_drop t l]
  exact List.getLast?_append_of_ne_nil _ h

theorem apply_fix_ok_eq (p : FixProposal) (content : Str)
    (h : ¬ (rustLines content).length < p.target_line) :
    apply_fix p content = Except.ok (
      if content.getLast? = some '\n'
      then joinNl (insert_all p.target_line p.inserted (rustLines content)) ++ ['\n']
      else joinNl (insert_all p.target_line p.inserted (rustLines content))) := by
  unfold apply_fix
  dsimp only
  rw [if_neg h]

theorem apply_fix_err_eq (p : FixProposal) (content : Str)
    (h : (rustLines content).length < p.target_line) :
    apply_fix p content = Except.error "target_line is beyond file length".toList := by
  unfold apply_fix
  dsimp only
  rw [if_pos h]

theorem rustLines_eq_of_last_nil (s : Str)
    (h : (splitWhen (fun c => c = '\n') s).getLast? = some [])
    (hcr : ∀ l ∈ (splitWhen (fun c => c = '\n') s).dropLast, '\r' ∉ l) :
    rustLines s = (splitWhen (fun c => c = '\n') s).dropLast := by
  unfold rustLines
  dsimp only
  rw [h, map_stripCR_id _ hcr]
  simp

theorem rustLines_eq_of_last_cons (s : Str) (y : Char) (ys : Str)
    (h : (splitWhen (fun c => c = '\n') s).getLast? = some (y :: ys))
    (hcr : ∀ l ∈ (splitWhen (fun c => c = '\n') s).dropLast, '\r' ∉ l) :
    rustLines s = splitWhen (fun c => c = '\n') s := by
  unfold rustLines
  dsimp only
  rw [h, map_stripCR_id _ hcr]
  exact List.dropLast_append_getLast? _ (by rw [Option.mem_def, h])

/-- C8 (amended): for a file without carriage returns and a proposal with a
1-based target line within the file whose inserted lines are non-empty and
free of newlines and carriage returns, `apply_fix` succeeds and the written
file has `old + len(inserted)` lines, byte length
`old + Σ (len(inserted[i]) + 1)`, and ends in a newline iff the original
did; if `target_line` exceeds the line count, `apply_fix` returns an error
and no content is written. -/
theorem apply_fix_spec (p : FixProposal) (content : Str)
    (hcr : hasChar content '\r' = false)
    (hins : ∀ l ∈ p.inserted, l ≠ [] ∧ hasChar l '\n' = false ∧ hasChar l '\r' = false)
    (ht1 : 1 ≤ p.target_line) :
    (p.target_line ≤ (rustLines content).length →
      ∃ out, apply_fix p content = Except.ok out ∧
        (rustLines out).length = (rustLines content).length + p.inserted.length ∧
        out.length = content.length + (p.inserted.map (fun l => l.length + 1)).sum ∧
        ((out.getLast? = some '\n') ↔ (content.getLast? = some '\n'))) ∧
    ((rustLines content).length < p.target_line →
      apply_fix p content = Except.error "target_line is beyond file length".toList) := by
  refine ⟨?_, fun hlt => apply_fix_err_eq p content hlt⟩
  intro hle
  have hrecon : joinNl (splitWhen (fun c => c = '\n') content) = content :=
    joinNl_splitWhen content
  have hpsne : splitWhen (fun c => c = '\n') content ≠ [] := splitWhen_ne_nil _ content
  have hfreeN : ∀ l ∈ splitWhen (fun c => c = '\n') content, ∀ c ∈ l, c ≠ '\n' := by
    intro l hl c hc
    have := splitWhen_pieces_free _ content l hl c hc
    simpa using this
  have hfreeR : ∀ l ∈ splitWhen (fun c => c = '\n') content, '\r' ∉ l := by
    intro l hl hcl
    exact (hasChar_eq_false_iff content '\r').mp hcr
      (hrecon ▸ mem_joinNl_of_mem _ l hl '\r' hcl)
  have hinsN : ∀ l ∈ p.inserted, ∀ c ∈ l, c ≠ '\n' := by
    intro l hl c hc hcEq
    exact (hasChar_eq_false_iff l '\n').mp (hins l hl).2.1 (hcEq ▸ hc)
  have hinsR : ∀ l ∈ p.inserted, '\r' ∉ l := fun l hl =>
    (hasChar_eq_false_iff l '\r').mp (hins l hl).2.2
  have hnlt : ¬ (rustLines content).length < p.target_line := by omega
  rw [apply_fix_ok_eq p content hnlt]
  have hcrDL : ∀ l ∈ (splitWhen (fun c => c = '\n') content).dropLast, '\r' ∉ l :=
    fun l hl => hfreeR l (List.dropLast_subset _ hl)
  cases hlast : (splitWhen (fun c => c = '\n') content).getLast? with
  | none => exact absurd (List.getLast?_eq_none_iff.mp hlast) hpsne
  | some lp =>
    cases lp with
    | nil =>
      -- the file ends with a newline
      have hrl : rustLines content = (splitWhen (fun c => c = '\n') content).dropLast :=
        rustLines_eq_of_last_nil content hlast hcrDL
      rw [hrl] at hle ⊢
      set A := (splitWhen (fun c => c = '\n') content).dropLast with hAdef
      have hAne : A ≠ [] := by
        intro h0
        rw [h0] at hle
        simp at hle
        omega
      have hpsdecomp : splitWhen (fun c => c = '\n') content = A ++ [[]] :=
        (List.dropLast_append_getLast? _ (by rw [Option.mem_def, hlast])).symm
      have hcontent : content = joinNl A ++ ['\n'] := by
        calc content = joinNl (splitWhen (fun c => c = '\n') content) := hrecon.symm
        _ = joinNl (A ++ [[]]) := by rw [← hpsdecomp]
        _ = joinNl A ++ ['\n'] := joinNl_concat_nil A hAne
      have htrail : content.getLast? = some '\n' := by
        rw [hcontent]
        exact List.getLast?_concat _
      rw [if_pos htrail]
      have hAfreeN : ∀ l ∈ A, ∀ c ∈ l, c ≠ '\n' :=
        fun l hl => hfreeN l (List.dropLast_subset _ hl)
      have hAcr : ∀ l ∈ A, '\r' ∉ l := fun l hl => hcrDL l hl
      have hiaeq : insert_all p.target_line p.inserted A =
          A.take p.target_line ++ p.inserted ++ A.drop p.target_line :=
        insert_all_eq p.inserted p.target_line A hle
      have hLfreeN : ∀ l ∈ A.take p.target_line ++ p.inserted ++ A.drop p.target_line,
          ∀ c ∈ l, c ≠ '\n' := by
        intro l hl
        rcases List.mem_append.mp hl with h | h
        · rcases List.mem_append.mp h with h | h
          · exact hAfreeN l (List.take_subset _ _ h)
          · exact hinsN l h
        · exact hAfreeN l (List.drop_subset _ _ h)
      have hLcr : ∀ l ∈ A.take p.target_line ++ p.inserted ++ A.drop p.target_line,
          '\r' ∉ l := by
        intro l hl
        rcases List.mem_append.mp hl with h | h
        · rcases List.mem_append.mp h with h | h
          · exact hAcr l (List.take_subset _ _ h)
          · exact hinsR l h
        · exact hAcr l (List.drop_subset _ _ h)
      have hlenL : (A.take p.target_line ++ p.inserted ++ A.drop p.target_line).length =
          A.length + p.inserted.length := by
        simp only [List.length_append, List.length_take, List.length_drop]
        omega
      have hLne : A.take p.target_line ++ p.inserted ++ A.drop p.target_line ≠ [] := by
        intro h0
        rw [h0] at hlenL
        simp only [List.length_nil] at hlenL
        have : A.length = 0 := by omega
        exact hAne (List.length_eq_zero.mp this)
      have e3 : ((A.take p.target_line ++ p.inserted ++ A.drop p.target_line).map
          List.length).sum =
          (A.map List.length).sum + (p.inserted.map List.length).sum := by
        have htd : ((A.take p.target_line).map List.length).sum +
            ((A.drop p.target_line).map List.length).sum = (A.map List.length).sum := by
          rw [← List.sum_append, ← List.map_append, List.take_append_drop]
        simp only [List.map_append, List.sum_append]
        omega
      refine ⟨_, rfl, ?_, ?_, ?_⟩
      · rw [hiaeq, rustLines_joinNl_newline _ hLne hLfreeN hLcr, hlenL]
      · rw [hiaeq]
        have e1 := joinNl_length _ hLne
        have e2 := joinNl_length A hAne
        have e4 := sum_map_len_succ p.inserted
        rw [hcontent]
        simp only [List.length_append, List.length_singleton]
        omega
      · rw [hiaeq]
        simp [List.getLast?_concat, htrail]
    | cons y ys =>
      -- the file does not end with a newline
      have hrl : rustLines content = splitWhen (fun c => c = '\n') content :=
        rustLines_eq_of_last_cons content y ys hlast hcrDL
      rw [hrl] at hle ⊢
      set A := splitWhen (fun c => c = '\n') content with hAdef
      have hlastne : ∀ lq, A.getLast? = some lq → lq ≠ [] := by
        intro lq h0
        rw [hlast] at h0
        injection h0 with h0
        rw [← h0]
        simp
      have hnotrail : content.getLast? ≠ some '\n' := by
        rw [← hrecon]
        exact joinNl_getLast_ne_newline A hpsne hfreeN hlastne
      rw [if_neg hnotrail]
      have hiaeq : insert_all p.target_line p.inserted A =
          A.take p.target_line ++ p.inserted ++ A.drop p.target_line :=
        insert_all_eq p.inserted p.target_line A hle
      have hLfreeN : ∀ l ∈ A.take p.target_line ++ p.inserted ++ A.drop p.target_line,
          ∀ c ∈ l, c ≠ '\n' := by
        intro l hl
        rcases List.mem_append.mp hl with h | h
        · rcases List.mem_append.mp h with h | h
          · exact hfreeN l (List.take_subset _ _ h)
          · exact hinsN l h
        · exact hfreeN l (List.drop_subset _ _ h)
      have hLcr : ∀ l ∈ A.take p.target_line ++ p.inserted ++ A.drop p.target_line,
          '\r' ∉ l := by
        intro l hl
        rcases List.mem_append.mp hl with h | h
        · rcases List.mem_append.mp h with h | h
          · exact hfreeR l (List.take_subset _ _ h)
          · exact hinsR l h
        · exact hfreeR l (List.drop_subset _ _ h)
      have hlenL : (A.take p.target_line ++ p.inserted ++ A.drop p.target_line).length =
          A.length + p.inserted.length := by
        simp only [List.length_append, List.length_take, List.length_drop]
        omega
      have hLne : A.take p.target_line ++ p.inserted ++ A.drop p.target_line ≠ [] := by
        intro h0
        rw [h0] at hlenL
        simp only [List.length_nil] at hlenL
        have : A.length = 0 := by omega
        exact hpsne (hAdef ▸ List.length_eq_zero.mp this)
      have hLlast : ∀ lq,
          (A.take p.target_line ++ p.inserted ++ A.drop p.target_line).getLast? = some lq →
          lq ≠ [] := by
        intro lq hlq
        cases hd : A.drop p.target_line with
        | nil =>
          rw [hd, List.append_nil] at hlq
          cases hi : p.inserted with
          | nil =>
            rw [hi, List.append_nil] at hlq
            have hlen : A.length ≤ p.target_line := by
              have := List.length_drop p.target_line A
              rw [hd] at this
              simp at this
              omega
            rw [List.take_of_length_le hlen] at hlq
            exact hlastne lq hlq
          | cons i it =>
            rw [hi] at hlq
            rw [List.getLast?_append_of_ne_nil _ (by simp)] at hlq
            have hmem : lq ∈ p.inserted := by
              rw [hi]
              exact mem_of_getLast?_eq _ lq hlq
            exact (hins lq hmem).1
        | cons d ds =>
          rw [hd] at hlq
          rw [List.getLast?_append_of_ne_nil _ (by simp)] at hlq
          rw [← hd] at hlq
          have : A.getLast? = some lq := by
            rw [getLast?_eq_getLast?_drop A p.target_line (by rw [hd]; simp)]
            exact hlq
          exact hlastne lq this
      have hout : (joinNl (A.take p.target_line ++ p.inserted ++
          A.drop p.target_line)).getLast? ≠ some '\n' :=
        joinNl_getLast_ne_newline _ hLne hLfreeN hLlast
      have e3 : ((A.take p.target_line ++ p.inserted ++ A.drop p.target_line).map
          List.length).sum =
          (A.map List.length).sum + (p.inserted.map List.length).sum := by
        have htd : ((A.take p.target_line).map List.length).sum +
            ((A.drop p.target_line).map List.length).sum = (A.map List.length).sum := by
          rw [← List.sum_append, ← List.map_append, List.take_append_drop]
        simp only [List.map_append, List.sum_append]
        omega
      refine ⟨_, rfl, ?_, ?_, ?_⟩
      · rw [hiaeq, rustLines_joinNl_plain _ hLne hLfreeN hLcr hLlast, hlenL]
      · rw [hiaeq]
        have e1 := joinNl_length _ hLne
        have e2 := joinNl_length A hpsne
        have e4 := sum_map_len_succ p.inserted
        have hclen : content.length = (joinNl A).length := by rw [hrecon]
        omega
      · rw [hiaeq]
        exact iff_of_false hout hnotrail

/-- A concrete clean proposal used to instantiate `apply_fix_spec`. -/
def cleanProposal : FixProposal :=
  ⟨"operation-summary".toList, "add summary".toList, 1, [], ["  x".toList], []⟩

theorem apply_fix_spec_witness :
    ∃ out, apply_fix cleanProposal "a\nb\n".toList = Except.ok out ∧
      (rustLines out).length = (rustLines "a\nb\n".toList).length +
        cleanProposal.inserted.length ∧
      out.length = "a\nb\n".toList.length +
        (cleanProposal.inserted.map (fun l => l.length + 1)).sum ∧
      ((out.getLast? = some '\n') ↔ ("a\nb\n".toList.getLast? = some '\n')) :=
  (apply_fix_spec cleanProposal "a\nb\n".toList (by decide) (by decide)
    (by decide)).1 (by decide)

-- ── Pipeline event lemmas ───────────────────────────────────────────────

theorem mem_drain_evs (phase : Phase) :
    ∀ (items : List OutputLine) (log : Str) (e : PipelineEvent),
      e ∈ (drain phase items log).evs → ∃ l, e = PipelineEvent.log phase l := by
  intro items
  induction items with
  | nil => intro log e he; simp [drain] at he
  | cons it rest ih =>
    intro log e he
    cases it with
    | stdout s =>
      simp only [drain, List.mem_cons] at he
      rcases he with he | he
      · exact ⟨s, he⟩
      · exact ih _ e he
    | stderr s =>
      simp only [drain, List.mem_cons] at he
      rcases he with he | he
      · exact ⟨s, he⟩
      · exact ih _ e he
    | done res => simp [drain] at he

theorem mem_run_container_evs (phase : Phase) (res : Except Str (List OutputLine))
    (e : PipelineEvent) (he : e ∈ (run_container phase res).evs) :
    ∃ l, e = PipelineEvent.log phase l := by
  cases res with
  | error msg => simp [run_container] at he
  | ok items => exact mem_drain_evs phase items [] e he

theorem mem_run_step_evs (w : World) (kind : StepKind) (i : Nat) (p : Str × Str)
    (e : PipelineEvent) (he : e ∈ (run_step w kind i p).1) :
    evPhase? e = some (stepPhase kind p.1 p.2) := by
  unfold run_step at he
  dsimp only at he
  rcases List.mem_cons.mp he with he | he
  · subst he; rfl
  · rcases List.mem_append.mp he with he | he
    · obtain ⟨l, hl⟩ := mem_run_container_evs _ _ e he
      subst hl; rfl
    · rw [List.mem_singleton.mp he]; rfl

theorem mem_run_chunks_evs (w : World) (kind : StepKind) (hm : MergeSound w.merge) :
    ∀ (chunks : List (List (Str × Str))) (si ci : Nat) (e : PipelineEvent),
      e ∈ (run_chunks w kind chunks si ci).evs →
      ∃ g s, evPhase? e = some (stepPhase kind g s) := by
  intro chunks
  induction chunks with
  | nil => intro si ci e he; simp [run_chunks] at he
  | cons chunk rest ih =>
    intro si ci e he
    by_cases hc : w.cancelled ci = true
    · simp [run_chunks, hc] at he
    · simp only [Bool.not_eq_true] at hc
      simp only [run_chunks, hc, Bool.false_eq_true, if_false, List.mem_append] at he
      rcases he with he | he
      · obtain ⟨l, hl, hel⟩ := hm si _ e he
        rw [List.mem_map] at hl
        obtain ⟨o, ho, hol⟩ := hl
        rw [List.mem_map] at ho
        obtain ⟨q, hq, hqo⟩ := ho
        subst hqo
        subst hol
        exact ⟨q.2.1, q.2.2, mem_run_step_evs w kind (si + q.1) q.2 e hel⟩
      · exact ih _ _ e he

theorem mem_run_steps_parallel_evs (w : World) (cfg : Config)
    (gens : List (Str × Str)) (kind : StepKind) (si ci : Nat)
    (hm : MergeSound w.merge) (e : PipelineEvent)
    (he : e ∈ (run_steps_parallel w cfg gens kind si ci).evs) :
    ∃ g s, evPhase? e = some (stepPhase kind g s) :=
  mem_run_chunks_evs w kind hm _ si ci e he

theorem isTerminal_false_of_evPhase (e : PipelineEvent) (ph : Phase)
    (h : evPhase? e = some ph) : isTerminal e = false := by
  cases e <;> simp_all [evPhase?, isTerminal]

theorem ne_compile_started_of_generate (e : PipelineEvent) (g s : Str)
    (h : evPhase? e = some (stepPhase StepKind.generate g s)) :
    ∀ g' s', e ≠ PipelineEvent.phaseStarted (Phase.compile g' s') := by
  intro g' s' heq
  subst heq
  exact Phase.noConfusion (Option.some.inj h)

theorem ne_compile_started_of_gen_phase (e : PipelineEvent) (g s : Str)
    (h : evPhase? e = some (Phase.generate g s)) :
    ∀ g' s', e ≠ PipelineEvent.phaseStarted (Phase.compile g' s') := by
  intro g' s' heq
  subst heq
  exact Phase.noConfusion (Option.some.inj h)

theorem terminal_eq_of_mem (pre : List PipelineEvent) (tl e : PipelineEvent)
    (hpre : ∀ x ∈ pre, isTerminal x = false) (hterm : isTerminal e = true)
    (hmem : e ∈ pre ++ [tl]) : e = tl := by
  rcases List.mem_append.mp hmem with h | h
  · rw [hpre e h] at hterm
    cases hterm
  · exact List.mem_singleton.mp h

theorem countP_pass_add (l : List StepResult) :
    l.countP isPass + l.countP (fun r => !isPass r) = l.length := by
  induction l with
  | nil => rfl
  | cons a t ih =>
    by_cases h : isPass a = true
    · simp [List.countP_cons, h]
      omega
    · simp only [Bool.not_eq_true] at h
      simp [List.countP_cons, h]
      omega

theorem compile_section_cases (cfg : Config) (n : Str) (w : World)
    (events : List PipelineEvent) (t p f : Nat) (lintRec : Option LintResult)
    (gRes : List StepResult) (gens : List (Str × Str)) (si ci : Nat)
    (hm : MergeSound w.merge) :
    (∃ evs2,
      compile_section cfg n w events t p f lintRec gRes gens si ci =
        events ++ evs2 ++ [PipelineEvent.aborted cancelMsg] ∧
      (∀ e ∈ evs2, ∃ g s, evPhase? e = some (Phase.compile g s)) ∧
      cfg.compile = true ∧ gRes.all isPass = true) ∨
    (∃ evs2 cRes,
      compile_section cfg n w events t p f lintRec gRes gens si ci =
        events ++ evs2 ++
          [finishReport cfg n ⟨lintRec, some gRes, some cRes⟩
            (t + cRes.length) (p + cRes.countP isPass)
            (f + cRes.countP (fun r => !isPass r))] ∧
      (∀ e ∈ evs2, ∃ g s, evPhase? e = some (Phase.compile g s)) ∧
      cfg.compile = true ∧ gRes.all isPass = true) ∨
    (compile_section cfg n w events t p f lintRec gRes gens si ci =
        events ++ [finishReport cfg n ⟨lintRec, some gRes, Option.none⟩ t p f] ∧
      ¬(cfg.compile = true ∧ gRes.all isPass = true)) := by
  have hev2 : ∀ e ∈ (run_steps_parallel w cfg gens StepKind.compile si ci).evs,
      ∃ g s, evPhase? e = some (Phase.compile g s) := by
    intro e he
    obtain ⟨g, s, hgs⟩ := mem_run_steps_parallel_evs w cfg gens StepKind.compile si ci hm e he
    exact ⟨g, s, hgs⟩
  by_cases hC : (cfg.compile && gRes.all isPass) = true
  · by_cases hcan :
        w.cancelled (run_steps_parallel w cfg gens StepKind.compile si ci).ci = true
    · left
      refine ⟨(run_steps_parallel w cfg gens StepKind.compile si ci).evs, ?_, hev2,
        (Bool.and_eq_true_iff.mp hC).1, (Bool.and_eq_true_iff.mp hC).2⟩
      unfold compile_section
      rw [if_pos hC, if_pos hcan]
    · right; left
      refine ⟨(run_steps_parallel w cfg gens StepKind.compile si ci).evs,
        (run_steps_parallel w cfg gens StepKind.compile si ci).results, ?_, hev2, ?_, ?_⟩
      · unfold compile_section
        rw [if_pos hC, if_neg hcan]
      · exact (Bool.and_eq_true_iff.mp hC).1
      · exact (Bool.and_eq_true_iff.mp hC).2
  · right; right
    constructor
    · unfold compile_section
      rw [if_neg hC]
    · rintro ⟨h1, h2⟩
      exact hC (by rw [h1, h2]; rfl)

theorem generate_section_cases (cfg : Config) (n : Str) (w : World)
    (events : List PipelineEvent) (t p f : Nat) (lintRec : Option LintResult)
    (si ci : Nat) (hm : MergeSound w.merge) :
    (∃ evs1,
      generate_section cfg n w events t p f lintRec si ci =
        events ++ evs1 ++ [PipelineEvent.aborted cancelMsg] ∧
      (∀ e ∈ evs1, ∃ g s, evPhase? e = some (Phase.generate g s))) ∨
    (∃ evs1 gRes si' ci',
      generate_section cfg n w events t p f lintRec si ci =
        compile_section cfg n w (events ++ evs1)
          (t + gRes.length) (p + gRes.countP isPass)
          (f + gRes.countP (fun r => !isPass r)) lintRec gRes
          (build_generator_list cfg) si' ci' ∧
      (∀ e ∈ evs1, ∃ g s, evPhase? e = some (Phase.generate g s))) ∨
    (generate_section cfg n w events t p f lintRec si ci =
        events ++ [finishReport cfg n ⟨lintRec, Option.none, Option.none⟩ t p f]) := by
  have hev1 : ∀ e ∈ (run_steps_parallel w cfg (build_generator_list cfg)
      StepKind.generate si ci).evs,
      ∃ g s, evPhase? e = some (Phase.generate g s) := by
    intro e he
    obtain ⟨g, s, hgs⟩ := mem_run_steps_parallel_evs w cfg _ StepKind.generate si ci hm e he
    exact ⟨g, s, hgs⟩
  by_cases hG : (cfg.generate && !(build_generator_list cfg).isEmpty) = true
  · by_cases hcan : w.cancelled (run_steps_parallel w cfg (build_generator_list cfg)
        StepKind.generate si ci).ci = true
    · left
      refine ⟨(run_steps_parallel w cfg (build_generator_list cfg)
        StepKind.generate si ci).evs, ?_, hev1⟩
      unfold generate_section
      rw [if_pos hG, if_pos hcan]
    · right; left
      refine ⟨(run_steps_parallel w cfg (build_generator_list cfg)
          StepKind.generate si ci).evs,
        (run_steps_parallel w cfg (build_generator_list cfg)
          StepKind.generate si ci).results,
        (run_steps_parallel w cfg (build_generator_list cfg)
          StepKind.generate si ci).si,
        (run_steps_parallel w cfg (build_generator_list cfg)
          StepKind.generate si ci).ci + 1, ?_, hev1⟩
      unfold generate_section
      rw [if_pos hG, if_neg hcan]
  · right; right
    unfold generate_section
    rw [if_neg hG]

theorem ne_compile_started_of_phase (e : PipelineEvent) (ph : Phase)
    (h : evPhase? e = some ph) (hph : ∀ g s, ph ≠ Phase.compile g s) :
    ∀ g' s', e ≠ PipelineEvent.phaseStarted (Phase.compile g' s') := by
  intro g' s' heq
  subst heq
  exact hph g' s' (Option.some.inj h).symm

theorem run_inner_cases (cfg : Config) (n : Str) (w : World) :
    (∃ lintEvs,
      run_inner cfg n w = lintEvs ++ [PipelineEvent.aborted cancelMsg] ∧
      (∀ e ∈ lintEvs, evPhase? e = some Phase.lint)) ∨
    (∃ (lintEvs : List PipelineEvent) (lintRec : Option LintResult)
      (t p f si ci : Nat),
      run_inner cfg n w = generate_section cfg n w lintEvs t p f lintRec si ci ∧
      (∀ e ∈ lintEvs, evPhase? e = some Phase.lint) ∧
      t = p + f ∧ t = (if lintRec.isSome then 1 else 0)) := by
  by_cases hlint : (cfg.lint && !(cfg.linter = Linter.none)) = true
  · have hlintEv : ∀ e ∈ (PipelineEvent.phaseStarted Phase.lint ::
        (run_container Phase.lint (w.spawnResult 0)).evs ++
        [PipelineEvent.phaseFinished Phase.lint
          (run_container Phase.lint (w.spawnResult 0)).outcome.success]),
        evPhase? e = some Phase.lint := by
      intro e he
      rcases List.mem_cons.mp he with he | he
      · rw [he]; rfl
      · rcases List.mem_append.mp he with he | he
        · obtain ⟨l, hl⟩ := mem_run_container_evs _ _ e he
          rw [hl]; rfl
        · rw [List.mem_singleton.mp he]; rfl
    by_cases hcan : w.cancelled 0 = true
    · left
      refine ⟨_, ?_, hlintEv⟩
      unfold run_inner
      rw [if_pos hlint]
      dsimp only
      rw [if_pos hcan]
    · right
      refine ⟨_,
        some ⟨cfg.linter.as_str,
          statusOf (run_container Phase.lint (w.spawnResult 0)).outcome.success,
          (run_container Phase.lint (w.spawnResult 0)).outcome.log⟩, 1,
        if (run_container Phase.lint (w.spawnResult 0)).outcome.success then 1 else 0,
        if (run_container Phase.lint (w.spawnResult 0)).outcome.success then 0 else 1,
        1, 1, ?_, hlintEv, ?_, rfl⟩
      · unfold run_inner
        rw [if_pos hlint]
        dsimp only
        rw [if_neg hcan]
      · by_cases h : (run_container Phase.lint (w.spawnResult 0)).outcome.success = true <;>
          simp [h]
  · right
    refine ⟨[], Option.none, 0, 0, 0, 0, 0, ?_, by simp, rfl, rfl⟩
    unfold run_inner
    rw [if_neg hlint]

/-- C1: for every configuration, spec name and world (any container
behaviours, any cancellation-poll results, any sound within-chunk event
interleaving), the event list produced by `run_inner` consists of a prefix
of non-terminal events followed by exactly one terminal event (`Completed`
or `Aborted`), which is therefore the last event of the stream.  The job
bound reflects that `Jobs::resolve` always returns a positive worker count
(the `jobs` deserializer rejects 0 and `auto` resolves to at least 1);
`slice::chunks` would panic otherwise. -/
theorem run_inner_single_terminal (cfg : Config) (n : Str) (w : World)
    (hm : MergeSound w.merge) (_hj : 1 ≤ cfg.jobs.resolve w.avail) :
    ∃ pre tl, run_inner cfg n w = pre ++ [tl] ∧ isTerminal tl = true ∧
      ∀ e ∈ pre, isTerminal e = false := by
  have hsub : ∀ (events : List PipelineEvent) t p f
      (lintRec : Option LintResult) si ci,
      (∀ e ∈ events, isTerminal e = false) →
      ∃ pre tl, generate_section cfg n w events t p f lintRec si ci = pre ++ [tl] ∧
        isTerminal tl = true ∧ ∀ e ∈ pre, isTerminal e = false := by
    intro events t p f lintRec si ci hev
    rcases generate_section_cases cfg n w events t p f lintRec si ci hm with
      ⟨evs1, heq, hph⟩ | ⟨evs1, gRes, si', ci', heq, hph⟩ | heq
    · refine ⟨events ++ evs1, PipelineEvent.aborted cancelMsg, by rw [heq, List.append_assoc], rfl, ?_⟩
      intro e he
      rcases List.mem_append.mp he with h | h
      · exact hev e h
      · obtain ⟨g, s, hgs⟩ := hph e h
        exact isTerminal_false_of_evPhase e _ hgs
    · have hev' : ∀ e ∈ events ++ evs1, isTerminal e = false := by
        intro e he
        rcases List.mem_append.mp he with h | h
        · exact hev e h
        · obtain ⟨g, s, hgs⟩ := hph e h
          exact isTerminal_false_of_evPhase e _ hgs
      rw [heq]
      rcases compile_section_cases cfg n w (events ++ evs1)
          (t + gRes.length) (p + gRes.countP isPass)
          (f + gRes.countP (fun r => !isPass r)) lintRec gRes
          (build_generator_list cfg) si' ci' hm with
        ⟨evs2, heq2, hph2, _, _⟩ | ⟨evs2, cRes, heq2, hph2, _, _⟩ | ⟨heq2, _⟩
      · refine ⟨(events ++ evs1) ++ evs2, PipelineEvent.aborted cancelMsg,
          by rw [heq2, List.append_assoc], rfl, ?_⟩
        intro e he
        rcases List.mem_append.mp he with h | h
        · exact hev' e h
        · obtain ⟨g, s, hgs⟩ := hph2 e h
          exact isTerminal_false_of_evPhase e _ hgs
      · refine ⟨(events ++ evs1) ++ evs2,
          finishReport cfg n ⟨lintRec, some gRes, some cRes⟩
            (t + gRes.length + cRes.length)
            (p + gRes.countP isPass + cRes.countP isPass)
            (f + gRes.countP (fun r => !isPass r) + cRes.countP (fun r => !isPass r)),
          by rw [heq2, List.append_assoc], rfl, ?_⟩
        intro e he
        rcases List.mem_append.mp he with h | h
        · exact hev' e h
        · obtain ⟨g, s, hgs⟩ := hph2 e h
          exact isTerminal_false_of_evPhase e _ hgs
      · exact ⟨events ++ evs1,
          finishReport cfg n ⟨lintRec, some gRes, Option.none⟩
            (t + gRes.length) (p + gRes.countP isPass)
            (f + gRes.countP (fun r => !isPass r)),
          by rw [heq2], rfl, hev'⟩
    · exact ⟨events, finishReport cfg n ⟨lintRec, Option.none, Option.none⟩ t p f,
        by rw [heq], rfl, hev⟩
  rcases run_inner_cases cfg n w with ⟨lintEvs, heq, hph⟩ |
    ⟨lintEvs, lintRec, t, p, f, si, ci, heq, hph, _, _⟩
  · refine ⟨lintEvs, PipelineEvent.aborted cancelMsg, heq, rfl, ?_⟩
    intro e he
    exact isTerminal_false_of_evPhase e _ (hph e he)
  · rw [heq]
    exact hsub lintEvs t p f lintRec si ci
      (fun e he => isTerminal_false_of_evPhase e _ (hph e he))

theorem not_mem_compile_started (l : List PipelineEvent)
    (h : ∀ e ∈ l, ∀ g s, e ≠ PipelineEvent.phaseStarted (Phase.compile g s))
    (g s : Str) : PipelineEvent.phaseStarted (Phase.compile g s) ∉ l :=
  fun hmem => h _ hmem g s rfl

theorem completed_not_mem_phased (l : List PipelineEvent)
    (h : ∀ e ∈ l, ∃ ph, evPhase? e = some ph) (r : ValidateReport) :
    PipelineEvent.completed r ∉ l := by
  intro hmem
  obtain ⟨ph, hph⟩ := h _ hmem
  exact Option.noConfusion hph

/-- C2: in a run with generate enabled and a non-empty generator list, the
compile phase is attempted only when compile is enabled and every generate
step passed: if compile is disabled no `PhaseStarted(Compile)` event ever
appears, and whenever the run completes with a generate record containing
a failing step, the stream contains no `PhaseStarted(Compile)` event and
the report's compile record is absent. -/
theorem run_inner_generate_gate (cfg : Config) (n : Str) (w : World)
    (hm : MergeSound w.merge) (_hj : 1 ≤ cfg.jobs.resolve w.avail)
    (_hg : cfg.generate = true) (_hne : build_generator_list cfg ≠ []) :
    (cfg.compile = false →
      ∀ g s, PipelineEvent.phaseStarted (Phase.compile g s) ∉ run_inner cfg n w) ∧
    (∀ r rs, PipelineEvent.completed r ∈ run_inner cfg n w →
      r.phases.generate = some rs →
      (∃ st ∈ rs, st.status ≠ "pass".toList) →
      r.phases.compile = Option.none ∧
      ∀ g s, PipelineEvent.phaseStarted (Phase.compile g s) ∉ run_inner cfg n w) := by
  rcases run_inner_cases cfg n w with ⟨lintEvs, heq, hph⟩ |
    ⟨lintEvs, lintRec, t, p, f, si, ci, heq, hph, hpf, hcount⟩
  · -- aborted right after lint
    have hlNC : ∀ e ∈ lintEvs, ∀ g s, e ≠ PipelineEvent.phaseStarted (Phase.compile g s) :=
      fun e he => ne_compile_started_of_phase e _ (hph e he)
        (fun _ _ hh => Phase.noConfusion hh)
    have hnc : ∀ g s, PipelineEvent.phaseStarted (Phase.compile g s) ∉ run_inner cfg n w := by
      intro g s hmem
      rw [heq] at hmem
      rcases List.mem_append.mp hmem with h | h
      · exact hlNC _ h g s rfl
      · simp at h
    refine ⟨fun _ => hnc, ?_⟩
    intro r rs hmem hgen hfail
    rw [heq] at hmem
    rcases List.mem_append.mp hmem with h | h
    · exact Option.noConfusion (hph _ h)
    · simp at h
  · have hlNC : ∀ e ∈ lintEvs, ∀ g s, e ≠ PipelineEvent.phaseStarted (Phase.compile g s) :=
      fun e he => ne_compile_started_of_phase e _ (hph e he)
        (fun _ _ hh => Phase.noConfusion hh)
    have hlPh : ∀ e ∈ lintEvs, ∃ ph, evPhase? e = some ph := fun e he => ⟨_, hph e he⟩
    rcases generate_section_cases cfg n w lintEvs t p f lintRec si ci hm with
      ⟨evs1, heq1, hph1⟩ | ⟨evs1, gRes, si', ci', heq1, hph1⟩ | heq1
    · -- aborted after generate
      have hNC : ∀ e ∈ lintEvs ++ evs1, ∀ g s,
          e ≠ PipelineEvent.phaseStarted (Phase.compile g s) := by
        intro e he
        rcases List.mem_append.mp he with h | h
        · exact hlNC e h
        · obtain ⟨g, s, hgs⟩ := hph1 e h
          exact ne_compile_started_of_phase e _ hgs (fun _ _ hh => Phase.noConfusion hh)
      have hPh : ∀ e ∈ lintEvs ++ evs1, ∃ ph, evPhase? e = some ph := by
        intro e he
        rcases List.mem_append.mp he with h | h
        · exact hlPh e h
        · obtain ⟨g, s, hgs⟩ := hph1 e h
          exact ⟨_, hgs⟩
      have hnc : ∀ g s,
          PipelineEvent.phaseStarted (Phase.compile g s) ∉ run_inner cfg n w := by
        intro g s hmem
        rw [heq, heq1, List.append_assoc] at hmem
        rcases List.mem_append.mp hmem with h | h
        · exact hNC _ (List.mem_append.mpr (Or.inl h)) g s rfl
        · rcases List.mem_append.mp h with h | h
          · exact hNC _ (List.mem_append.mpr (Or.inr h)) g s rfl
          · simp at h
      refine ⟨fun _ => hnc, ?_⟩
      intro r rs hmem hgen hfail
      rw [heq, heq1] at hmem
      rcases List.mem_append.mp hmem with h | h
      · exact absurd h (completed_not_mem_phased _ hPh r)
      · simp at h
    · -- generate ran; compile section
      rw [heq, heq1]
      have hNC : ∀ e ∈ lintEvs ++ evs1, ∀ g s,
          e ≠ PipelineEvent.phaseStarted (Phase.compile g s) := by
        intro e he
        rcases List.mem_append.mp he with h | h
        · exact hlNC e h
        · obtain ⟨g, s, hgs⟩ := hph1 e h
          exact ne_compile_started_of_phase e _ hgs (fun _ _ hh => Phase.noConfusion hh)
      have hPh : ∀ e ∈ lintEvs ++ evs1, ∃ ph, evPhase? e = some ph := by
        intro e he
        rcases List.mem_append.mp he with h | h
        · exact hlPh e h
        · obtain ⟨g, s, hgs⟩ := hph1 e h
          exact ⟨_, hgs⟩
      rcases compile_section_cases cfg n w (lintEvs ++ evs1)
          (t + gRes.length) (p + gRes.countP isPass)
          (f + gRes.countP (fun x => !isPass x)) lintRec gRes
          (build_generator_list cfg) si' ci' hm with
        ⟨evs2, heq2, hph2, hCc, hCall⟩ | ⟨evs2, cRes, heq2, hph2, hCc, hCall⟩ |
        ⟨heq2, hCneg⟩
      · -- aborted during compile (compile was enabled and gate passed)
        rw [heq2]
        constructor
        · intro hc
          rw [hc] at hCc
          exact absurd hCc (by simp)
        · intro r rs hmem hgen hfail
          rcases List.mem_append.mp hmem with h | h
          · rcases List.mem_append.mp h with h | h
            · exact absurd h (completed_not_mem_phased _ hPh r)
            · obtain ⟨g, s, hgs⟩ := hph2 _ h
              exact Option.noConfusion hgs
          · simp at h
      · -- completed with compile record (gate passed)
        rw [heq2]
        constructor
        · intro hc
          rw [hc] at hCc
          exact absurd hCc (by simp)
        · intro r rs hmem hgen hfail
          have hpre : ∀ e ∈ (lintEvs ++ evs1) ++ evs2, isTerminal e = false := by
            intro e he
            rcases List.mem_append.mp he with h | h
            · obtain ⟨ph, hp⟩ := hPh e h
              exact isTerminal_false_of_evPhase e _ hp
            · obtain ⟨g, s, hgs⟩ := hph2 e h
              exact isTerminal_false_of_evPhase e _ hgs
          have hr := terminal_eq_of_mem ((lintEvs ++ evs1) ++ evs2) _
            (PipelineEvent.completed r) hpre rfl hmem
          have hrr := PipelineEvent.completed.inj hr
          subst hrr
          simp only [finishReport] at hgen
          have hrs : gRes = rs := by
            have : some gRes = some rs := hgen
            exact Option.some.inj this
          subst hrs
          obtain ⟨st, hst, hstatus⟩ := hfail
          have hpass := List.all_eq_true.mp hCall st hst
          simp only [isPass, decide_eq_true_eq] at hpass
          exact absurd hpass hstatus
      · -- compile skipped
        rw [heq2]
        have hnc2 : ∀ g s, PipelineEvent.phaseStarted (Phase.compile g s) ∉
            (lintEvs ++ evs1) ++
              [finishReport cfg n ⟨lintRec, some gRes, Option.none⟩
                (t + gRes.length) (p + gRes.countP isPass)
                (f + gRes.countP (fun x => !isPass x))] := by
          intro g s hmem
          rcases List.mem_append.mp hmem with h | h
          · exact hNC _ h g s rfl
          · simp [finishReport] at h
        refine ⟨fun _ => hnc2, ?_⟩
        intro r rs hmem hgen hfail
        have hpre : ∀ e ∈ lintEvs ++ evs1, isTerminal e = false := by
          intro e he
          obtain ⟨ph, hp⟩ := hPh e he
          exact isTerminal_false_of_evPhase e _ hp
        have hr := terminal_eq_of_mem (lintEvs ++ evs1) _
          (PipelineEvent.completed r) hpre rfl hmem
        have hrr := PipelineEvent.completed.inj hr
        subst hrr
        exact ⟨rfl, hnc2⟩
    · -- generate skipped entirely
      rw [heq, heq1]
      have hnc3 : ∀ g s, PipelineEvent.phaseStarted (Phase.compile g s) ∉
          lintEvs ++ [finishReport cfg n ⟨lintRec, Option.none, Option.none⟩ t p f] := by
        intro g s hmem
        rcases List.mem_append.mp hmem with h | h
        · exact hlNC _ h g s rfl
        · simp [finishReport] at h
      refine ⟨fun _ => hnc3, ?_⟩
      intro r rs hmem hgen hfail
      have hpre : ∀ e ∈ lintEvs, isTerminal e = false := by
        intro e he
        exact isTerminal_false_of_evPhase e _ (hph e he)
      have hr := terminal_eq_of_mem lintEvs _ (PipelineEvent.completed r) hpre rfl hmem
      have hrr := PipelineEvent.completed.inj hr
      subst hrr
      exact Option.noConfusion hgen

/-- C7: every `Completed` report satisfies
`summary.total = summary.passed + summary.failed`, and `summary.total`
equals the number of step-result records across the populated phase
records (1 for a populated lint record plus the lengths of the generate
and compile result lists). -/
theorem run_inner_summary_consistent (cfg : Config) (n : Str) (w : World)
    (hm : MergeSound w.merge) (_hj : 1 ≤ cfg.jobs.resolve w.avail) :
    ∀ r, PipelineEvent.completed r ∈ run_inner cfg n w →
      r.summary.total = r.summary.passed + r.summary.failed ∧
      r.summary.total = (if r.phases.lint.isSome then 1 else 0) +
        (r.phases.generate.getD []).length + (r.phases.compile.getD []).length := by
  intro r hmem
  rcases run_inner_cases cfg n w with ⟨lintEvs, heq, hph⟩ |
    ⟨lintEvs, lintRec, t, p, f, si, ci, heq, hph, hpf, hcount⟩
  · rw [heq] at hmem
    rcases List.mem_append.mp hmem with h | h
    · exact Option.noConfusion (hph _ h)
    · simp at h
  · rw [heq] at hmem
    have hlPh : ∀ e ∈ lintEvs, ∃ ph, evPhase? e = some ph := fun e he => ⟨_, hph e he⟩
    rcases generate_section_cases cfg n w lintEvs t p f lintRec si ci hm with
      ⟨evs1, heq1, hph1⟩ | ⟨evs1, gRes, si', ci', heq1, hph1⟩ | heq1
    · rw [heq1] at hmem
      rcases List.mem_append.mp hmem with h | h
      · rcases List.mem_append.mp h with h | h
        · exact absurd h (completed_not_mem_phased _ hlPh r)
        · obtain ⟨g, s, hgs⟩ := hph1 _ h
          exact Option.noConfusion hgs
      · simp at h
    · rw [heq1] at hmem
      have hPh : ∀ e ∈ lintEvs ++ evs1, ∃ ph, evPhase? e = some ph := by
        intro e he
        rcases List.mem_append.mp he with h | h
        · exact hlPh e h
        · obtain ⟨g, s, hgs⟩ := hph1 e h
          exact ⟨_, hgs⟩
      have hpre : ∀ e ∈ lintEvs ++ evs1, isTerminal e = false := by
        intro e he
        obtain ⟨ph, hp⟩ := hPh e he
        exact isTerminal_false_of_evPhase e _ hp
      rcases compile_section_cases cfg n w (lintEvs ++ evs1)
          (t + gRes.length) (p + gRes.countP isPass)
          (f + gRes.countP (fun x => !isPass x)) lintRec gRes
          (build_generator_list cfg) si' ci' hm with
        ⟨evs2, heq2, hph2, hCc, hCall⟩ | ⟨evs2, cRes, heq2, hph2, hCc, hCall⟩ |
        ⟨heq2, hCneg⟩
      · rw [heq2] at hmem
        rcases List.mem_append.mp hmem with h | h
        · rcases List.mem_append.mp h with h | h
          · exact absurd h (completed_not_mem_phased _ hPh r)
          · obtain ⟨g, s, hgs⟩ := hph2 _ h
            exact Option.noConfusion hgs
        · simp at h
      · rw [heq2] at hmem
        have hpre2 : ∀ e ∈ (lintEvs ++ evs1) ++ evs2, isTerminal e = false := by
          intro e he
          rcases List.mem_append.mp he with h | h
          · exact hpre e h
          · obtain ⟨g, s, hgs⟩ := hph2 e h
            exact isTerminal_false_of_evPhase e _ hgs
        have hr := terminal_eq_of_mem ((lintEvs ++ evs1) ++ evs2) _
          (PipelineEvent.completed r) hpre2 rfl hmem
        have hrr := PipelineEvent.completed.inj hr
        subst hrr
        have hg := countP_pass_add gRes
        have hc := countP_pass_add cRes
        constructor
        · simp only [finishReport]
          omega
        · simp only [finishReport, Option.getD_some]
          cases lintRec <;> simp_all
      · rw [heq2] at hmem
        have hr := terminal_eq_of_mem (lintEvs ++ evs1) _
          (PipelineEvent.completed r) hpre rfl hmem
        have hrr := PipelineEvent.completed.inj hr
        subst hrr
        have hg := countP_pass_add gRes
        constructor
        · simp only [finishReport]
          omega
        · simp only [finishReport, Option.getD_some, Option.getD_none]
          cases lintRec <;> simp_all
    · rw [heq1] at hmem
      have hpre : ∀ e ∈ lintEvs, isTerminal e = false := fun e he =>
        isTerminal_false_of_evPhase e _ (hph e he)
      have hr := terminal_eq_of_mem lintEvs _ (PipelineEvent.completed r) hpre rfl hmem
      have hrr := PipelineEvent.completed.inj hr
      subst hrr
      constructor
      · exact hpf
      · simp only [Option.getD_none, List.length_nil]
        cases lintRec <;> simp_all

-- ── Concrete pipeline instantiation ─────────────────────────────────────

/-- A concrete spec basename. -/
def specName0 : Str := "spec.yaml".toList

/-- A concrete world: every container spawn fails, cancellation is never
observed, chunk events are concatenated in step order. -/
def w0 : World :=
  ⟨fun _ => Except.error "no docker".toList, fun _ => false,
   fun _ ls => ls.flatten, some 1⟩

/-- A concrete configuration: lint off, one server generator, generate and
compile on. -/
def cfg1 : Config :=
  ⟨Mode.server, false, true, true, Linter.spectral,
   ["spring".toList], [], Jobs.fixed 1⟩

/-- The step result of the failed generator container in `w0`. -/
def step1def : StepResult :=
  ⟨"spring".toList, "server".toList, "fail".toList,
   "Failed to spawn container: no docker".toList⟩

/-- The report the run over `cfg1`/`w0` completes with. -/
def r1def : ValidateReport :=
  ⟨specName0, "server".toList, ⟨Option.none, some [step1def], Option.none⟩, ⟨1, 0, 1⟩⟩

theorem mergeSound_w0 : MergeSound w0.merge := by
  intro i ls e he
  exact List.mem_flatten.mp he

theorem run_inner_single_terminal_witness :
    MergeSound w0.merge ∧ 1 ≤ cfg1.jobs.resolve w0.avail ∧
    ∃ pre tl, run_inner cfg1 specName0 w0 = pre ++ [tl] ∧ isTerminal tl = true ∧
      ∀ e ∈ pre, isTerminal e = false :=
  ⟨mergeSound_w0, by decide,
    run_inner_single_terminal cfg1 specName0 w0 mergeSound_w0 (by decide)⟩

theorem run_inner_generate_gate_witness :
    r1def.phases.compile = Option.none ∧
    PipelineEvent.phaseStarted
        (Phase.compile "spring".toList "server".toList) ∉
      run_inner cfg1 specName0 w0 :=
  have h := (run_inner_generate_gate cfg1 specName0 w0 mergeSound_w0 (by decide)
      rfl (by decide)).2 r1def [step1def] (by decide) (by decide)
      ⟨step1def, by decide, by decide⟩
  ⟨h.1, h.2 "spring".toList "server".toList⟩

theorem run_inner_summary_witness :
    r1def.summary.total = r1def.summary.passed + r1def.summary.failed ∧
    r1def.summary.total = (if r1def.phases.lint.isSome then 1 else 0) +
      (r1def.phases.generate.getD []).length + (r1def.phases.compile.getD []).length :=
  run_inner_summary_consistent cfg1 specName0 w0 mergeSound_w0 (by decide)
    r1def (by decide)
